import Mathlib

/-!
Verification of the cryptographic core of the OKLabs repository against its
specification.  The Go sources are shallowly embedded: byte strings become
`List Nat` (each element `< 256` where it matters), machine integers become
`Nat` with explicit truncation (`% 2 ^ w`, or the source's own `&&&` masks),
fallible functions return `Except String`, and the nondeterministic inputs
(random padding bytes, random deltas, thread count) become explicit
parameters.
-/

namespace OKLabs

/-! ## GF(2⁸) service (`gf28_service.go`) -/

/-- One iteration step of the Russian-peasant multiplication loop in
`GF28Service.Multiply`: conditionally accumulate `a`, shift `a` left one bit
inside a byte (`a <<= 1` on `uint8` truncates mod 256), reduce by `modulus`
when the high bit was set, and shift `b` right. -/
def multiplyStep (modulus a b result : Nat) : Nat × Nat × Nat :=
  let result := if b &&& 1 ≠ 0 then result ^^^ a else result
  let carry := a &&& 0x80 ≠ 0
  let a := (a <<< 1) % 256
  let a := if carry then a ^^^ modulus else a
  (a, b >>> 1, result)

/-- The 8-iteration loop of `GF28Service.Multiply`. -/
def multiplyLoop (modulus : Nat) : Nat → Nat → Nat → Nat → Nat
  | _, _, result, 0 => result
  | a, b, result, n + 1 =>
    let s := multiplyStep modulus a b result
    multiplyLoop modulus s.1 s.2.1 s.2.2 n

/-- `GF28Service.Multiply` from `gf28_service.go` (the Go function also
returns an `error` that is always `nil`, so the embedding is total). -/
def Multiply (a b modulus : Nat) : Nat :=
  multiplyLoop modulus a b 0 8

/-- The 8-iteration loop of `GF28Service.MultiplySimple`, which hardcodes the
reduction polynomial `0x1B`. -/
def multiplySimpleLoop : Nat → Nat → Nat → Nat → Nat
  | _, _, result, 0 => result
  | a, b, result, n + 1 =>
    let s := multiplyStep 0x1B a b result
    multiplySimpleLoop s.1 s.2.1 s.2.2 n

/-- `GF28Service.MultiplySimple` from `gf28_service.go`. -/
def MultiplySimple (a b : Nat) : Nat :=
  multiplySimpleLoop a b 0 8

/-- `GF28Service.Inverse` from `gf28_service.go`: brute-force search of
`t ∈ [1, 256)` with `a ⊗ t = 1`. -/
def Inverse (a modulus : Nat) : Except String Nat :=
  if a = 0 then .error "zero element has no inverse"
  else
    match (List.range' 1 255).find? (fun t => Multiply a t modulus = 1) with
    | some t => .ok t
    | none => .error "inverse not found"

/-! ## Rijndael state transformations (`part_005`, `RijndaelCipher`) -/

/-- The fields of `RijndaelCipher` that its `shiftRows`/`mixColumns` methods
consult.  The remaining fields (S-boxes, round keys, key size) play no role
in the claims below and are omitted. -/
structure RijndaelCipher where
  modulus : Nat
  blockSize : Nat

/-- The 16-byte branch of `RijndaelCipher.shiftRows`: the literal sequence of
assignments from the source, threaded through `List.set`. -/
def shiftRows16 (s : List Nat) : List Nat :=
  -- second row: cyclic shift by 1
  let temp := s.getD 1 0
  let s := s.set 1 (s.getD 5 0)
  let s := s.set 5 (s.getD 9 0)
  let s := s.set 9 (s.getD 13 0)
  let s := s.set 13 temp
  -- third row: cyclic shift by 2
  let temp := s.getD 2 0
  let s := s.set 2 (s.getD 10 0)
  let s := s.set 10 temp
  let temp := s.getD 6 0
  let s := s.set 6 (s.getD 14 0)
  let s := s.set 14 temp
  -- fourth row: cyclic shift by 3
  let temp := s.getD 15 0
  let s := s.set 15 (s.getD 11 0)
  let s := s.set 11 (s.getD 7 0)
  let s := s.set 7 (s.getD 3 0)
  let s := s.set 3 temp
  s

/-- The 16-byte branch of `RijndaelCipher.invShiftRows`. -/
def invShiftRows16 (s : List Nat) : List Nat :=
  -- second row: inverse shift by 1
  let temp := s.getD 13 0
  let s := s.set 13 (s.getD 9 0)
  let s := s.set 9 (s.getD 5 0)
  let s := s.set 5 (s.getD 1 0)
  let s := s.set 1 temp
  -- third row: inverse shift by 2
  let temp := s.getD 2 0
  let s := s.set 2 (s.getD 10 0)
  let s := s.set 10 temp
  let temp := s.getD 6 0
  let s := s.set 6 (s.getD 14 0)
  let s := s.set 14 temp
  -- fourth row: inverse shift by 3
  let temp := s.getD 3 0
  let s := s.set 3 (s.getD 7 0)
  let s := s.set 7 (s.getD 11 0)
  let s := s.set 11 (s.getD 15 0)
  let s := s.set 15 temp
  s

/-- `RijndaelCipher.shiftRows`: the body is guarded by
`if rc.blockSize == 16`; for any other block size the state is untouched. -/
def RijndaelCipher.shiftRows (rc : RijndaelCipher) (state : List Nat) : List Nat :=
  if rc.blockSize = 16 then shiftRows16 state else state

/-- `RijndaelCipher.invShiftRows`, same guard. -/
def RijndaelCipher.invShiftRows (rc : RijndaelCipher) (state : List Nat) : List Nat :=
  if rc.blockSize = 16 then invShiftRows16 state else state

/-- One column transformation of `RijndaelCipher.mixColumns` at offset `i`
(the source saves `s0..s3` before overwriting, so the update is pure in the
saved values). -/
def mixColAt (i : Nat) (s : List Nat) : List Nat :=
  let s0 := s.getD i 0
  let s1 := s.getD (i + 1) 0
  let s2 := s.getD (i + 2) 0
  let s3 := s.getD (i + 3) 0
  let s := s.set i (MultiplySimple 0x02 s0 ^^^ MultiplySimple 0x03 s1 ^^^ s2 ^^^ s3)
  let s := s.set (i + 1) (s0 ^^^ MultiplySimple 0x02 s1 ^^^ MultiplySimple 0x03 s2 ^^^ s3)
  let s := s.set (i + 2) (s0 ^^^ s1 ^^^ MultiplySimple 0x02 s2 ^^^ MultiplySimple 0x03 s3)
  let s := s.set (i + 3) (MultiplySimple 0x03 s0 ^^^ s1 ^^^ s2 ^^^ MultiplySimple 0x02 s3)
  s

/-- One column transformation of `RijndaelCipher.invMixColumns` at offset `i`. -/
def invMixColAt (i : Nat) (s : List Nat) : List Nat :=
  let s0 := s.getD i 0
  let s1 := s.getD (i + 1) 0
  let s2 := s.getD (i + 2) 0
  let s3 := s.getD (i + 3) 0
  let s := s.set i (MultiplySimple 0x0e s0 ^^^ MultiplySimple 0x0b s1 ^^^
    MultiplySimple 0x0d s2 ^^^ MultiplySimple 0x09 s3)
  let s := s.set (i + 1) (MultiplySimple 0x09 s0 ^^^ MultiplySimple 0x0e s1 ^^^
    MultiplySimple 0x0b s2 ^^^ MultiplySimple 0x0d s3)
  let s := s.set (i + 2) (MultiplySimple 0x0d s0 ^^^ MultiplySimple 0x09 s1 ^^^
    MultiplySimple 0x0e s2 ^^^ MultiplySimple 0x0b s3)
  let s := s.set (i + 3) (MultiplySimple 0x0b s0 ^^^ MultiplySimple 0x0d s1 ^^^
    MultiplySimple 0x09 s2 ^^^ MultiplySimple 0x0e s3)
  s

/-- The `for i := 0; i < blockSize; i += 4` loop of `mixColumns` and
`invMixColumns`, with the per-iteration guard `i+4 <= blockSize`; `count`
iterations starting at index `i`. -/
def colLoop (f : Nat → List Nat → List Nat) (blockSize : Nat) :
    Nat → Nat → List Nat → List Nat
  | 0, _, s => s
  | c + 1, i, s =>
    let s := if i + 4 ≤ blockSize then f i s else s
    colLoop f blockSize c (i + 4) s

/-- `RijndaelCipher.mixColumns`.  The loop runs while `i < blockSize` in
steps of 4, i.e. `⌈blockSize/4⌉` iterations. -/
def RijndaelCipher.mixColumns (rc : RijndaelCipher) (state : List Nat) : List Nat :=
  colLoop mixColAt rc.blockSize ((rc.blockSize + 3) / 4) 0 state

/-- `RijndaelCipher.invMixColumns`. -/
def RijndaelCipher.invMixColumns (rc : RijndaelCipher) (state : List Nat) : List Nat :=
  colLoop invMixColAt rc.blockSize ((rc.blockSize + 3) / 4) 0 state

/-! ## Padding (`cipher_context.go`) -/

/-- `PaddingMode` constants from `cipher_context.go`, in source order. -/
inductive PaddingMode where
  | Zeros
  | ANSIX923
  | PKCS7
  | ISO10126
deriving DecidableEq

/-- `CipherMode` constants from `cipher_context.go`, in source order. -/
inductive CipherMode where
  | ECB
  | CBC
  | PCBC
  | CFB
  | OFB
  | CTR
  | RandomDelta
deriving DecidableEq

/-- `CipherContext.applyPadding`.  The ISO 10126 random bytes come from the
explicit stream `rnd` (the source draws them from `crypto/rand`); the Go
function's error cases (nil data, random-source failure) cannot arise in the
embedding, so it is total.  `uint8(paddingLength)` is `p % 256`. -/
def applyPadding (pm : PaddingMode) (blockSize : Nat) (rnd : List Nat)
    (data : List Nat) : List Nat :=
  let p := blockSize - data.length % blockSize
  let p := if p = 0 then blockSize else p
  match pm with
  | .Zeros => data ++ List.replicate p 0
  | .PKCS7 => data ++ List.replicate p (p % 256)
  | .ANSIX923 => data ++ (List.replicate (p - 1) 0 ++ [p % 256])
  | .ISO10126 => data ++ (rnd.take (p - 1) ++ [p % 256])

/-- The `PaddingModeZeros` branch of `removePadding`: scan from the last byte
down, return `data[:i+1]` at the first non-zero byte, `[]` if all are zero. -/
def stripTrailingZeros (data : List Nat) : List Nat :=
  (data.reverse.dropWhile (fun x => x = 0)).reverse

/-- `CipherContext.removePadding`.  The Go function never returns a non-nil
error, so the embedding is total.  The leading plausibility test reads the
final byte and returns the data unchanged when it is `0`, exceeds the block
size, or exceeds the data length. -/
def removePadding (pm : PaddingMode) (blockSize : Nat) (data : List Nat) :
    List Nat :=
  -- `pl` in the source is `int(data[len(data)-1])`, written out in full here
  if data.length = 0 then data
  else if data.getLastD 0 = 0 ∨ blockSize < data.getLastD 0 ∨
      data.length < data.getLastD 0 then data
  else
    match pm with
    | .PKCS7 =>
      if (data.drop (data.length - data.getLastD 0)).all
          (fun x => x = data.getLastD 0) then
        data.take (data.length - data.getLastD 0)
      else data
    | .ANSIX923 =>
      if ((data.drop (data.length - data.getLastD 0)).dropLast).all
          (fun x => x = 0) then
        data.take (data.length - data.getLastD 0)
      else data
    | .ISO10126 => data.take (data.length - data.getLastD 0)
    | .Zeros => stripTrailingZeros data

/-! ## C4 — Zeros padding removal -/

theorem stripTrailingZeros_of_getLast_ne_zero (l : List Nat)
    (h : l.getLastD 0 ≠ 0) : stripTrailingZeros l = l := by
  unfold stripTrailingZeros
  match hl : l.reverse with
  | [] =>
    have : l = [] := List.reverse_eq_nil_iff.mp hl
    subst this
    exact absurd rfl h
  | x :: tail =>
    have hlast : l.getLastD 0 = x := by
      rw [List.getLastD_eq_getLast?, List.getLast?_eq_head?_reverse, hl]; rfl
    have hx : ¬ (x = 0) := fun hx0 => h (hlast.trans hx0)
    rw [List.dropWhile_cons_of_neg (by simpa using hx), ← hl,
      List.reverse_reverse]

/-- C4 (counterexample): padding the one-byte input `[1]` with the Zeros
scheme at block size 2 appends one zero byte, but `removePadding` does not
strip it: the claimed result `[1]` is not returned. -/
theorem c4_counterexample :
    applyPadding .Zeros 2 [] [1] = [1, 0] ∧
      ¬ removePadding .Zeros 2 [1, 0] = [1] := by
  constructor
  · rfl
  · decide

theorem removePadding_zeros_eq (blockSize : Nat) (data : List Nat) :
    removePadding .Zeros blockSize data = data := by
  unfold removePadding
  split
  · rfl
  · split
    · rfl
    · next hpl =>
      exact stripTrailingZeros_of_getLast_ne_zero data
        (fun h => hpl (Or.inl h))

/-- C4 (amended): under the Zeros scheme `removePadding` is the identity on
every input: a trailing zero byte fails the leading plausibility test (the
final byte, read as the padding length, is 0), and when the final byte is
non-zero there are no trailing zeros to strip. -/
theorem c4_amended (blockSize : Nat) (data : List Nat) :
    removePadding .Zeros blockSize data = data :=
  removePadding_zeros_eq blockSize data

/-! ## C5 — wide-block ShiftRows -/

/-- The behaviour claimed by the spec for block sizes 24 and 32: the standard
16-byte shift applied to the first 16 bytes, the tail unchanged. -/
def shiftRowsClaimed (state : List Nat) : List Nat :=
  shiftRows16 (state.take 16) ++ state.drop 16

/-- C5 (counterexample): for block size 24 the implementation leaves the
whole state unchanged; it does not shift the first 16 bytes as claimed. -/
theorem c5_counterexample :
    ¬ RijndaelCipher.shiftRows ⟨0x1B, 24⟩ (List.range 24) =
      shiftRowsClaimed (List.range 24) := by decide

/-- C5 (amended): for block sizes 24 and 32 both `shiftRows` and
`invShiftRows` are the identity on the whole state (the only shifting branch
is guarded by `blockSize == 16`), so they are trivially mutual inverses. -/
theorem c5_amended (m : Nat) (state : List Nat) :
    RijndaelCipher.shiftRows ⟨m, 24⟩ state = state ∧
      RijndaelCipher.shiftRows ⟨m, 32⟩ state = state ∧
      RijndaelCipher.invShiftRows ⟨m, 24⟩ state = state ∧
      RijndaelCipher.invShiftRows ⟨m, 32⟩ state = state :=
  ⟨rfl, rfl, rfl, rfl⟩

/-! ## C7 — MixColumns ignores the configured modulus -/

theorem multiplySimpleLoop_eq (n : Nat) :
    ∀ a b r, multiplySimpleLoop a b r n = multiplyLoop 0x1B a b r n := by
  induction n with
  | zero => intro a b r; rfl
  | succ n ih =>
    intro a b r
    simp only [multiplySimpleLoop, multiplyLoop]
    exact ih _ _ _

/-- C7: `mixColumns` and `invMixColumns` do not consult the configured
modulus — their output for any modulus `m` equals the output with the
standard modulus `0x1B` — because every multiplication goes through
`MultiplySimple`, which is `Multiply` with the reduction polynomial fixed to
`0x1B`. -/
theorem c7_mixColumns_fixed_modulus (m B : Nat) (state : List Nat) :
    RijndaelCipher.mixColumns ⟨m, B⟩ state =
        RijndaelCipher.mixColumns ⟨0x1B, B⟩ state ∧
      RijndaelCipher.invMixColumns ⟨m, B⟩ state =
        RijndaelCipher.invMixColumns ⟨0x1B, B⟩ state ∧
      ∀ a b : Nat, MultiplySimple a b = Multiply a b 0x1B :=
  ⟨rfl, rfl, fun a b => multiplySimpleLoop_eq 8 a b 0⟩

/-! ## C8 — GF(2⁸) identities under 0x1B -/

/-- `GF28Service.Add` from `gf28_service.go`: byte XOR. -/
def GFAdd (a b : Nat) : Nat := a ^^^ b

/-- Table of multiplicative inverses under `0x1B` (index 0 unused), used
only as a proof witness for the totality of `Inverse`. -/
def invTable : List Nat :=
  [0, 1, 141, 246, 203, 82, 123, 209, 232, 79, 41, 192, 176, 225, 229, 199,
  116, 180, 170, 75, 153, 43, 96, 95, 88, 63, 253, 204, 255, 64, 238, 178,
  58, 110, 90, 241, 85, 77, 168, 201, 193, 10, 152, 21, 48, 68, 162, 194,
  44, 69, 146, 108, 243, 57, 102, 66, 242, 53, 32, 111, 119, 187, 89, 25,
  29, 254, 55, 103, 45, 49, 245, 105, 167, 100, 171, 19, 84, 37, 233, 9,
  237, 92, 5, 202, 76, 36, 135, 191, 24, 62, 34, 240, 81, 236, 97, 23, 22,
  94, 175, 211, 73, 166, 54, 67, 244, 71, 145, 223, 51, 147, 33, 59, 121,
  183, 151, 133, 16, 181, 186, 60, 182, 112, 208, 6, 161, 250, 129, 130,
  131, 126, 127, 128, 150, 115, 190, 86, 155, 158, 149, 217, 247, 2, 185,
  164, 222, 106, 50, 109, 216, 138, 132, 114, 42, 20, 159, 136, 249, 220,
  137, 154, 251, 124, 46, 195, 143, 184, 101, 72, 38, 200, 18, 74, 206, 231,
  210, 98, 12, 224, 31, 239, 17, 117, 120, 113, 165, 142, 118, 61, 189, 188,
  134, 87, 11, 40, 47, 163, 218, 212, 228, 15, 169, 39, 83, 4, 27, 252, 172,
  230, 122, 7, 174, 99, 197, 219, 226, 234, 148, 139, 196, 213, 157, 248,
  144, 107, 177, 13, 214, 235, 198, 14, 207, 173, 8, 78, 215, 227, 93, 80,
  30, 179, 91, 35, 56, 52, 104, 70, 3, 140, 221, 156, 125, 160, 205, 26, 65,
  28]

set_option maxRecDepth 2000 in
theorem invTable_spec : ∀ a : Nat, a < 256 → 0 < a →
    Multiply a (invTable.getD a 0) 0x1B = 1 ∧
      0 < invTable.getD a 0 ∧ invTable.getD a 0 < 256 := by decide

/-- C8: under the standard polynomial `0x1B`, `Add 0x57 0x83 = 0xD4`,
`Multiply 0x57 0x83 0x1B = 0xC1`, and `Inverse` succeeds on every non-zero
byte with a value that multiplies back to 1. -/
theorem c8_gf_identities :
    GFAdd 0x57 0x83 = 0xD4 ∧ Multiply 0x57 0x83 0x1B = 0xC1 ∧
      ∀ a : Nat, 1 ≤ a → a < 256 →
        ∃ t, Inverse a 0x1B = .ok t ∧ Multiply a t 0x1B = 1 := by
  refine ⟨by decide, by decide, fun a h1 h256 => ?_⟩
  have ha : a ≠ 0 := Nat.pos_iff_ne_zero.mp h1
  obtain ⟨htab, ht1, ht256⟩ := invTable_spec a h256 h1
  have hmem : invTable.getD a 0 ∈ List.range' 1 255 := by
    rw [List.mem_range'_1]
    omega
  match hfind : (List.range' 1 255).find? (fun t => Multiply a t 0x1B = 1) with
  | none =>
    exact absurd (decide_eq_true htab) (List.find?_eq_none.mp hfind _ hmem)
  | some t =>
    refine ⟨t, ?_, ?_⟩
    · simp [Inverse, ha, hfind]
    · have := List.find?_some hfind
      simpa using this

/-- C8 (witness): instantiation of the inverse clause at `a = 0x57`. -/
theorem c8_gf_identities_witness :
    ∃ t, Inverse 0x57 0x1B = .ok t ∧ Multiply 0x57 t 0x1B = 1 :=
  c8_gf_identities.2.2 0x57 (by decide) (by decide)

instance {ε α : Type} [DecidableEq ε] [DecidableEq α] :
    DecidableEq (Except ε α) := fun x y =>
  match x, y with
  | .ok a, .ok b =>
    decidable_of_iff (a = b) ⟨fun h => by rw [h], fun h => by injection h⟩
  | .error a, .error b =>
    decidable_of_iff (a = b) ⟨fun h => by rw [h], fun h => by injection h⟩
  | .ok _, .error _ => isFalse (fun h => by injection h)
  | .error _, .ok _ => isFalse (fun h => by injection h)

/-! ## Bit permutation (`permute.go`) and DES key schedule
(`des_key_schedule.go`) -/

/-- The loop body of `PermuteBits`, iterating over the remaining rule
entries with `i` the current output bit index.  `sourcePos` is computed in
`Int` as in Go, so a rule entry below `startBitNum` is rejected.  The
source's secondary `sourceByte >= len(value)` check is subsumed by the
bounds check and cannot fire. -/
def permuteBitsGo (value : List Nat) (indexFromLSB : Bool) (startBitNum : Nat) :
    List Nat → Nat → List Nat → Except String (List Nat)
  | [], _, result => .ok result
  | r :: rest, i, result =>
    let sourcePos : Int := (r : Int) - (startBitNum : Int)
    if sourcePos < 0 ∨ ((value.length * 8 : Nat) : Int) ≤ sourcePos then
      .error "position out of bounds"
    else
      let sp := sourcePos.toNat
      let sourceByte := sp / 8
      let sourceBit := if indexFromLSB then sp % 8 else 7 - sp % 8
      let bitValue := (value.getD sourceByte 0 >>> sourceBit) &&& 1
      let destByte := i / 8
      let destBit := if indexFromLSB then i % 8 else 7 - i % 8
      let result :=
        if destByte < result.length then
          result.set destByte (result.getD destByte 0 ||| (bitValue <<< destBit))
        else result
      permuteBitsGo value indexFromLSB startBitNum rest (i + 1) result

/-- `PermuteBits` from `permute.go`. -/
def PermuteBits (value rule : List Nat) (indexFromLSB : Bool)
    (startBitNum : Nat) : Except String (List Nat) :=
  permuteBitsGo value indexFromLSB startBitNum rule 0
    (List.replicate ((rule.length + 7) / 8) 0)

/-- `PC1` table from `des_key_schedule.go`. -/
def PC1 : List Nat :=
  [57, 49, 41, 33, 25, 17, 9,
  1, 58, 50, 42, 34, 26, 18,
  10, 2, 59, 51, 43, 35, 27,
  19, 11, 3, 60, 52, 44, 36,
  63, 55, 47, 39, 31, 23, 15,
  7, 62, 54, 46, 38, 30, 22,
  14, 6, 61, 53, 45, 37, 29,
  21, 13, 5, 28, 20, 12, 4]

/-- `PC2` table from `des_key_schedule.go`. -/
def PC2 : List Nat :=
  [14, 17, 11, 24, 1, 5,
  3, 28, 15, 6, 21, 10,
  23, 19, 12, 4, 26, 8,
  16, 7, 27, 20, 13, 2,
  41, 52, 31, 37, 47, 55,
  30, 40, 51, 45, 33, 48,
  44, 49, 39, 56, 34, 53,
  46, 42, 50, 36, 29, 32]

/-- `SHIFT_SCHEDULE` from `des_key_schedule.go`. -/
def SHIFT_SCHEDULE : List Nat :=
  [1, 1, 2, 2, 2, 2, 2, 2, 1, 2, 2, 2, 2, 2, 2, 1]

/-- The big-endian `uint32` assembled from 4 bytes at the top of
`leftShift28`: `value |= data[0]<<24; ... |= data[3]`. -/
def word32 (data : List Nat) : Nat :=
  ((data.getD 0 0 <<< 24 ||| data.getD 1 0 <<< 16) ||| data.getD 2 0 <<< 8) |||
    data.getD 3 0

/-- `DESKeySchedule.leftShift28` from `des_key_schedule.go`.  All arithmetic
is `uint32`; the left shift is truncated modulo `2^32` (immaterial for the
schedule's shift amounts 1 and 2, where no overflow occurs). -/
def leftShift28 (data : List Nat) (shifts : Nat) : Except String (List Nat) :=
  if data.length ≠ 4 then .error "data must be 4 bytes (28 bits used)"
  else
    let value := word32 data &&& 0x0FFFFFFF
    let value :=
      (((value <<< shifts) % 2 ^ 32) ||| (value >>> (28 - shifts))) &&&
        0x0FFFFFFF
    .ok [(value >>> 24) &&& 0xFF, (value >>> 16) &&& 0xFF,
      (value >>> 8) &&& 0xFF, value &&& 0xFF]

/-- The two 28-iteration extraction loops in `GenerateRoundKeys` that read
bits `off..off+27` of the PC1 output MSB-first into a fresh 4-byte half
(`off = 0` for `C`, `off = 28` for `D`). -/
def extract28 (pk : List Nat) (off : Nat) : List Nat :=
  (List.range 28).foldl
    (fun C i =>
      let bit := (pk.getD ((i + off) / 8) 0 >>> (7 - (i + off) % 8)) &&& 1
      C.set (i / 8) (C.getD (i / 8) 0 ||| (bit <<< (7 - i % 8))))
    (List.replicate 4 0)

/-- The two 28-iteration packing loops in `GenerateRoundKeys` that write the
28 bits of a half MSB-first into `CD` starting at bit `dstOff`. -/
def pack28 (CD src : List Nat) (dstOff : Nat) : List Nat :=
  (List.range 28).foldl
    (fun CD i =>
      let bit := (src.getD (i / 8) 0 >>> (7 - i % 8)) &&& 1
      CD.set ((i + dstOff) / 8)
        (CD.getD ((i + dstOff) / 8) 0 ||| (bit <<< (7 - (i + dstOff) % 8))))
    CD

/-- The 16-round loop of `GenerateRoundKeys`: rotate both halves by the
schedule amount for the current round, reassemble `CD`, apply PC2. -/
def desRounds : Nat → Nat → List Nat → List Nat →
    Except String (List (List Nat))
  | _, 0, _, _ => .ok []
  | round, c + 1, C, D => do
    let s := SHIFT_SCHEDULE.getD round 0
    let C ← leftShift28 C s
    let D ← leftShift28 D s
    let CD := pack28 (pack28 (List.replicate 7 0) C 0) D 28
    let rk ← PermuteBits CD PC2 false 1
    let rest ← desRounds (round + 1) c C D
    .ok (rk :: rest)

/-- `DESKeySchedule.GenerateRoundKeys` from `des_key_schedule.go`. -/
def GenerateRoundKeys (masterKey : List Nat) :
    Except String (List (List Nat)) :=
  if masterKey.length ≠ 8 then .error "DES key must be 8 bytes (64 bits)"
  else do
    let permutedKey ← PermuteBits masterKey PC1 false 1
    desRounds 0 16 (extract28 permutedKey 0) (extract28 permutedKey 28)

/-- The 28-bit left-rotation formula asserted by the spec:
`((v << s) | (v >> (28 − s))) & 0x0FFFFFFF`. -/
def rot28 (v s : Nat) : Nat :=
  ((v <<< s) ||| (v >>> (28 - s))) &&& 0x0FFFFFFF

/-! ## C2 — DES key-schedule half rotation -/

set_option maxRecDepth 8000 in
/-- C2 (counterexample): `GenerateRoundKeys` packs each PC1 half into 4 bytes
top-aligned, so `word32` of the half is `h·16` with `h` the 28-bit value.
For the half `h = 2^27` (packing `[0x80,0,0,0]`) and round-1 shift 1, the
claimed rotation yields `rot28 h 1 = 1` (packing `[0,0,0,0x10]`), but
`leftShift28` returns `[0,0,0,0]`: the mask `&&& 0x0FFFFFFF` is applied to
the top-aligned word and destroys the half's four most significant bits.
Consequently the key `[0,0,0,0,0,0,0,0x80]`, whose PC1 image sets exactly
that bit, produces the same round keys as the all-zero key. -/
theorem c2_counterexample :
    word32 [0x80, 0, 0, 0] % 16 = 0 ∧
      word32 [0x80, 0, 0, 0] / 16 = 2 ^ 27 ∧
      SHIFT_SCHEDULE.getD 0 0 = 1 ∧
      rot28 (2 ^ 27) 1 = 1 ∧
      leftShift28 [0x80, 0, 0, 0] 1 = .ok [0, 0, 0, 0] ∧
      ¬ leftShift28 [0x80, 0, 0, 0] 1 = .ok [0x00, 0x00, 0x00, 0x10] ∧
      GenerateRoundKeys [0, 0, 0, 0, 0, 0, 0, 0x80] =
        GenerateRoundKeys [0, 0, 0, 0, 0, 0, 0, 0] := by
  refine ⟨by decide, by decide, by decide, by decide, by decide, by decide, ?_⟩
  decide

theorem word32_cons (a b c d : Nat) :
    word32 [a, b, c, d] = ((a <<< 24 ||| b <<< 16) ||| c <<< 8) ||| d := rfl

theorem word32_eq_sum (a b c d : Nat) (hb : b < 256) (hc : c < 256)
    (hd : d < 256) :
    word32 [a, b, c, d] = a * 2 ^ 24 + b * 2 ^ 16 + c * 2 ^ 8 + d := by
  rw [word32_cons, Nat.shiftLeft_eq, Nat.shiftLeft_eq, Nat.shiftLeft_eq]
  have h1 : b * 2 ^ 16 < 2 ^ 24 := by omega
  have h2 : c * 2 ^ 8 < 2 ^ 16 := by omega
  have h3 : d < 2 ^ 8 := hd
  rw [show a * 2 ^ 24 = 2 ^ 24 * a by ring, ← Nat.mul_add_lt_is_or h1,
    show 2 ^ 24 * a + b * 2 ^ 16 = 2 ^ 16 * (a * 2 ^ 8 + b) by ring,
    ← Nat.mul_add_lt_is_or h2,
    show 2 ^ 16 * (a * 2 ^ 8 + b) + c * 2 ^ 8 =
      2 ^ 8 * ((a * 2 ^ 8 + b) * 2 ^ 8 + c) by ring,
    ← Nat.mul_add_lt_is_or h3]

theorem word32_decomp (x : Nat) (hx : x < 2 ^ 32) :
    word32 [(x >>> 24) &&& 0xFF, (x >>> 16) &&& 0xFF, (x >>> 8) &&& 0xFF,
      x &&& 0xFF] = x := by
  have hmask : (0xFF : Nat) = 2 ^ 8 - 1 := by norm_num
  rw [hmask, Nat.and_pow_two_sub_one_eq_mod, Nat.and_pow_two_sub_one_eq_mod,
    Nat.and_pow_two_sub_one_eq_mod, Nat.and_pow_two_sub_one_eq_mod,
    Nat.shiftRight_eq_div_pow, Nat.shiftRight_eq_div_pow,
    Nat.shiftRight_eq_div_pow,
    word32_eq_sum _ _ _ _ (Nat.mod_lt _ (by norm_num))
      (Nat.mod_lt _ (by norm_num)) (Nat.mod_lt _ (by norm_num))]
  omega

/-- C2 (amended): `leftShift28` applies the spec's rotation formula to the
*low* 28 bits of the big-endian word read from its input and returns the
result bottom-aligned: `word32(result) = rot28 (word32(data) mod 2^28) s`
for the schedule's shift amounts.  Since `GenerateRoundKeys` packs each PC1
half top-aligned (`word32 = half·16`), the first rotation of each half acts
on `(half mod 2^24)·16`, discarding the half's four most significant bits,
not on the half as produced by PC1. -/
theorem c2_amended (d0 d1 d2 d3 s : Nat) (hs : s = 1 ∨ s = 2) :
    ∃ res, leftShift28 [d0, d1, d2, d3] s = .ok res ∧
      word32 res = rot28 (word32 [d0, d1, d2, d3] % 2 ^ 28) s := by
  have hmask : (0x0FFFFFFF : Nat) = 2 ^ 28 - 1 := by norm_num
  refine ⟨_, rfl, ?_⟩
  have hv : word32 [d0, d1, d2, d3] &&& 0x0FFFFFFF =
      word32 [d0, d1, d2, d3] % 2 ^ 28 := by
    rw [hmask, Nat.and_pow_two_sub_one_eq_mod]
  set w := word32 [d0, d1, d2, d3] % 2 ^ 28 with hw
  have hwlt : w < 2 ^ 28 := Nat.mod_lt _ (by norm_num)
  have hshift : (w <<< s) % 2 ^ 32 = w <<< s := by
    apply Nat.mod_eq_of_lt
    rw [Nat.shiftLeft_eq]
    rcases hs with h | h <;> subst h <;> omega
  have hlt : ((w <<< s ||| w >>> (28 - s)) &&& 0x0FFFFFFF) < 2 ^ 32 := by
    have := @Nat.and_le_right (w <<< s ||| w >>> (28 - s)) 0x0FFFFFFF
    omega
  simp only [hv, hshift]
  rw [word32_decomp _ hlt]
  rfl

/-- C2 (witness): the amended rotation law at `data = [1,2,3,4]`, `s = 1`. -/
theorem c2_amended_witness :
    ∃ res, leftShift28 [1, 2, 3, 4] 1 = .ok res ∧
      word32 res = rot28 (word32 [1, 2, 3, 4] % 2 ^ 28) 1 :=
  c2_amended 1 2 3 4 1 (Or.inl rfl)

/-! ## Feistel driver (`feistel_network.go`) -/

/-- Pointwise XOR of two byte strings, truncated to the shorter one — the
loop body shared by `FeistelNetwork.xorBlocks` and
`CipherContext.xorBlocks`. -/
def xorB (a b : List Nat) : List Nat :=
  List.zipWith (fun x y => x ^^^ y) a b

/-- `FeistelNetwork.xorBlocks`: errors when the shorter operand is empty. -/
def xorBlocksF (left right : List Nat) : Except String (List Nat) :=
  if min left.length right.length = 0 then .error "blocks cannot be empty"
  else .ok (xorB left right)

/-- `FeistelNetwork.splitBlock`. -/
def splitBlock (block : List Nat) : Except String (List Nat × List Nat) :=
  if block.length = 0 then .error "block cannot be empty"
  else if block.length % 2 ≠ 0 then
    .error "block size must be even for splitting"
  else .ok (block.take (block.length / 2), block.drop (block.length / 2))

/-- The mutable state of `FeistelNetwork`; the key-schedule and
round-function interface objects are passed to the operations as
functions. -/
structure FeistelNetwork where
  blockSize : Nat
  roundsCount : Nat
  currentKey : List Nat
  roundKeys : List (List Nat)

/-- `FeistelNetwork.SetKey`: stores a copy of the key, runs the schedule,
stores its result in `roundKeys`, and only then checks that enough round
keys were produced.  Returns the updated network together with the Go
function's error result. -/
def FeistelNetwork.SetKey (fn : FeistelNetwork)
    (schedule : List Nat → Except String (List (List Nat)))
    (key : List Nat) : FeistelNetwork × Except String Unit :=
  if key.length = 0 then (fn, .error "key cannot be empty")
  else
    let fn := { fn with currentKey := key }
    match schedule key with
    | .error e => (fn, .error e)
    | .ok ks =>
      let fn := { fn with roundKeys := ks }
      if ks.length < fn.roundsCount then
        (fn, .error "key schedule generated insufficient round keys")
      else (fn, .ok ())

/-- The encryption round loop of `FeistelNetwork.EncryptBlock`: `c`
remaining rounds, `i` the current round index.  `roundKeys[round]` out of
bounds is a Go run-time crash, modelled as the distinguished error
`"index out of range"`. -/
def encRounds (F : List Nat → List Nat → Except String (List Nat))
    (keys : List (List Nat)) :
    Nat → Nat → List Nat → List Nat → Except String (List Nat × List Nat)
  | 0, _, left, right => .ok (left, right)
  | c + 1, i, left, right =>
    match keys[i]? with
    | none => .error "index out of range"
    | some k => do
      let fo ← F right k
      let nr ← xorBlocksF left fo
      encRounds F keys c (i + 1) right nr

/-- `FeistelNetwork.EncryptBlock`, parameterised by the round function's
`Apply`. -/
def FeistelNetwork.EncryptBlock (fn : FeistelNetwork)
    (F : List Nat → List Nat → Except String (List Nat))
    (plainBlock : List Nat) : Except String (List Nat) :=
  if plainBlock.length ≠ fn.blockSize then
    .error "plain block size must match configured block size"
  else if fn.roundKeys.length = 0 then .error "key not set"
  else do
    let p ← splitBlock plainBlock
    let q ← encRounds F fn.roundKeys fn.roundsCount 0 p.1 p.2
    .ok (q.1 ++ q.2)

/-- The decryption round loop of `FeistelNetwork.DecryptBlock`: `c`
remaining rounds, processing key indices `c-1, c-2, …, 0`. -/
def decRounds (F : List Nat → List Nat → Except String (List Nat))
    (keys : List (List Nat)) :
    Nat → List Nat → List Nat → Except String (List Nat × List Nat)
  | 0, left, right => .ok (left, right)
  | c + 1, left, right =>
    match keys[c]? with
    | none => .error "index out of range"
    | some k => do
      let fo ← F left k
      let nl ← xorBlocksF right fo
      decRounds F keys c nl left

/-- `FeistelNetwork.DecryptBlock`. -/
def FeistelNetwork.DecryptBlock (fn : FeistelNetwork)
    (F : List Nat → List Nat → Except String (List Nat))
    (cipherBlock : List Nat) : Except String (List Nat) :=
  if cipherBlock.length ≠ fn.blockSize then
    .error "cipher block size must match configured block size"
  else if fn.roundKeys.length = 0 then .error "key not set"
  else do
    let p ← splitBlock cipherBlock
    let q ← decRounds F fn.roundKeys fn.roundsCount p.1 p.2
    .ok (q.1 ++ q.2)

/-- The forward round recurrence exactly as the spec states it:
`L_{r+1} = R_r`, `R_{r+1} = L_r ⊕ F(R_r, K_r)`. -/
def feistelSpecStates (f : List Nat → List Nat → List Nat)
    (keys : List (List Nat)) (l0 r0 : List Nat) : Nat → List Nat × List Nat
  | 0 => (l0, r0)
  | r + 1 =>
    let p := feistelSpecStates f keys l0 r0 r
    (p.2, xorB p.1 (f p.2 (keys.getD r [])))

/-- The backward recurrence exactly as the spec states it, as one step per
round: with key `K_c`, `(L_{c+1}, R_{c+1}) ↦ (R_{c+1} ⊕ F(L_{c+1}, K_c),
L_{c+1})`, run for key indices `c-1 … 0`. -/
def feistelSpecBack (f : List Nat → List Nat → List Nat)
    (keys : List (List Nat)) : Nat → List Nat × List Nat → List Nat × List Nat
  | 0, p => p
  | c + 1, p =>
    feistelSpecBack f keys c (xorB p.2 (f p.1 (keys.getD c [])), p.1)

theorem xorB_length (a b : List Nat) :
    (xorB a b).length = min a.length b.length := by
  simp [xorB]

theorem xorB_cancel (a b : List Nat) (h : a.length = b.length) :
    xorB (xorB a b) b = a := by
  induction a generalizing b with
  | nil => cases b <;> simp [xorB]
  | cons x xs ih =>
    cases b with
    | nil => simp at h
    | cons y ys =>
      simp only [xorB, List.zipWith_cons_cons]
      have := ih ys (by simpa using h)
      simp only [xorB] at this
      simp [this, Nat.xor_cancel_right]

section FeistelProofs

variable (f : List Nat → List Nat → List Nat)
variable (F : List Nat → List Nat → Except String (List Nat))
variable (keys : List (List Nat)) (h : Nat)

theorem specStates_length (l0 r0 : List Nat)
    (hf : ∀ x k, x.length = h → (f x k).length = h)
    (hl : l0.length = h) (hr : r0.length = h) :
    ∀ r, (feistelSpecStates f keys l0 r0 r).1.length = h ∧
      (feistelSpecStates f keys l0 r0 r).2.length = h := by
  intro r
  induction r with
  | zero => exact ⟨hl, hr⟩
  | succ r ih =>
    refine ⟨ih.2, ?_⟩
    rw [feistelSpecStates]
    simp only [xorB_length, ih.1, hf _ _ ih.2]
    omega

end FeistelProofs

theorem exceptBind_ok {α β : Type} (a : α) (g : α → Except String β) :
    (Except.ok a >>= g) = g a := rfl

theorem exceptBind_err {α β : Type} (e : String)
    (g : α → Except String β) :
    ((Except.error e : Except String α) >>= g) = .error e := rfl

section FeistelProofs

variable (f : List Nat → List Nat → List Nat)
variable (F : List Nat → List Nat → Except String (List Nat))
variable (keys : List (List Nat)) (h : Nat)

theorem xorBlocksF_ok (a b : List Nat) (ha : a.length = h)
    (hb : b.length = h) (hh : h ≠ 0) :
    xorBlocksF a b = .ok (xorB a b) := by
  rw [xorBlocksF, if_neg]
  rw [ha, hb]
  omega

theorem encRounds_spec (l0 r0 : List Nat) (hh : h ≠ 0)
    (hF : ∀ x k, x.length = h →
      F x k = .ok (f x k) ∧ (f x k).length = h)
    (hl : l0.length = h) (hr : r0.length = h) :
    ∀ c i, i + c ≤ keys.length →
      encRounds F keys c i (feistelSpecStates f keys l0 r0 i).1
          (feistelSpecStates f keys l0 r0 i).2 =
        .ok (feistelSpecStates f keys l0 r0 (i + c)) := by
  have hf : ∀ x k, x.length = h → (f x k).length = h :=
    fun x k hx => (hF x k hx).2
  have hlen := specStates_length f keys h l0 r0 hf hl hr
  intro c
  induction c with
  | zero => intro i _; rfl
  | succ c ih =>
    intro i hle
    have hi : i < keys.length := by omega
    have hk : keys[i]? = some keys[i] := List.getElem?_eq_getElem hi
    have hkey : keys.getD i [] = keys[i] := by
      rw [List.getD_eq_getElem?_getD, hk]; rfl
    have hFi := hF (feistelSpecStates f keys l0 r0 i).2 keys[i] (hlen i).2
    have hxor := xorBlocksF_ok h (feistelSpecStates f keys l0 r0 i).1
      (f (feistelSpecStates f keys l0 r0 i).2 keys[i])
      (hlen i).1 hFi.2 hh
    simp only [encRounds, hk, hFi.1, hxor, exceptBind_ok]
    have h2 : (feistelSpecStates f keys l0 r0 (i + 1)).2 =
        xorB (feistelSpecStates f keys l0 r0 i).1
          (f (feistelSpecStates f keys l0 r0 i).2 keys[i]) := by
      rw [feistelSpecStates, hkey]
    have h1 : (feistelSpecStates f keys l0 r0 (i + 1)).1 =
        (feistelSpecStates f keys l0 r0 i).2 := by
      rw [feistelSpecStates]
    rw [← h2, ← h1]
    have := ih (i + 1) (by omega)
    rw [this, show i + 1 + c = i + (c + 1) by omega]

theorem decRounds_back (hh : h ≠ 0)
    (hF : ∀ x k, x.length = h →
      F x k = .ok (f x k) ∧ (f x k).length = h) :
    ∀ c l r, c ≤ keys.length → l.length = h → r.length = h →
      decRounds F keys c l r = .ok (feistelSpecBack f keys c (l, r)) := by
  intro c
  induction c with
  | zero => intro l r _ _ _; rfl
  | succ c ih =>
    intro l r hle hl hr
    have hi : c < keys.length := by omega
    have hk : keys[c]? = some keys[c] := List.getElem?_eq_getElem hi
    have hkey : keys.getD c [] = keys[c] := by
      rw [List.getD_eq_getElem?_getD, hk]; rfl
    have hFi := hF l keys[c] hl
    have hxor := xorBlocksF_ok h r (f l keys[c]) hr hFi.2 hh
    simp only [decRounds, hk, hFi.1, hxor, exceptBind_ok]
    have hnl : (xorB r (f l keys[c])).length = h := by
      rw [xorB_length, hr, hFi.2]; omega
    rw [ih (xorB r (f l keys[c])) l (by omega) hnl hl]
    rw [feistelSpecBack, hkey]

theorem specBack_inverts (l0 r0 : List Nat)
    (hf : ∀ x k, x.length = h → (f x k).length = h)
    (hl : l0.length = h) (hr : r0.length = h) :
    ∀ c, feistelSpecBack f keys c (feistelSpecStates f keys l0 r0 c) =
      (l0, r0) := by
  have hlen := specStates_length f keys h l0 r0 hf hl hr
  intro c
  induction c with
  | zero => rfl
  | succ c ih =>
    rw [feistelSpecStates, feistelSpecBack]
    simp only
    rw [xorB_cancel _ _ (by
      rw [(hlen c).1, hf _ _ (hlen c).2])]
    exact ih

end FeistelProofs

/-- C3: for every even positive block size, round count, length-preserving
round function and sufficiently long round-key list, `EncryptBlock` computes
exactly the spec's forward recurrence (`L_{r+1} = R_r`,
`R_{r+1} = L_r ⊕ F(R_r, K_r)`) and returns `L_rounds ++ R_rounds` with no
final swap; `DecryptBlock` computes the spec's backward recurrence over the
reversed key order; and `DecryptBlock (EncryptBlock x) = x`. -/
theorem c3_feistel_structure (fn : FeistelNetwork)
    (F : List Nat → List Nat → Except String (List Nat))
    (f : List Nat → List Nat → List Nat) (block : List Nat)
    (hBpos : 0 < fn.blockSize) (hBeven : fn.blockSize % 2 = 0)
    (hblock : block.length = fn.blockSize)
    (hkeys : fn.roundsCount ≤ fn.roundKeys.length)
    (hkeys0 : 0 < fn.roundKeys.length)
    (hF : ∀ x k, x.length = fn.blockSize / 2 →
      F x k = .ok (f x k) ∧ (f x k).length = fn.blockSize / 2) :
    (fn.EncryptBlock F block = .ok
      ((feistelSpecStates f fn.roundKeys (block.take (fn.blockSize / 2))
          (block.drop (fn.blockSize / 2)) fn.roundsCount).1 ++
        (feistelSpecStates f fn.roundKeys (block.take (fn.blockSize / 2))
          (block.drop (fn.blockSize / 2)) fn.roundsCount).2)) ∧
      (∀ l r : List Nat, l.length = fn.blockSize / 2 →
        r.length = fn.blockSize / 2 →
        fn.DecryptBlock F (l ++ r) = .ok
          ((feistelSpecBack f fn.roundKeys fn.roundsCount (l, r)).1 ++
            (feistelSpecBack f fn.roundKeys fn.roundsCount (l, r)).2)) ∧
      (∀ ct, fn.EncryptBlock F block = .ok ct →
        fn.DecryptBlock F ct = .ok block) := by
  set h := fn.blockSize / 2 with hh_def
  have hh : h ≠ 0 := by omega
  have hf : ∀ x k, x.length = h → (f x k).length = h :=
    fun x k hx => (hF x k hx).2
  have htake : (block.take h).length = h := by
    rw [List.length_take]; omega
  have hdrop : (block.drop h).length = h := by
    rw [List.length_drop]; omega
  have hlen := specStates_length f fn.roundKeys h
    (block.take h) (block.drop h) hf htake hdrop
  have hsplit : splitBlock block =
      .ok (block.take h, block.drop h) := by
    rw [splitBlock, if_neg (by omega), if_neg (by simp [hblock, hBeven]),
      hblock]
  have henc : fn.EncryptBlock F block = .ok
      ((feistelSpecStates f fn.roundKeys (block.take h)
          (block.drop h) fn.roundsCount).1 ++
        (feistelSpecStates f fn.roundKeys (block.take h)
          (block.drop h) fn.roundsCount).2) := by
    rw [FeistelNetwork.EncryptBlock, if_neg (by omega), if_neg (by omega),
      hsplit, exceptBind_ok]
    have := encRounds_spec f F fn.roundKeys h (block.take h) (block.drop h)
      hh hF htake hdrop fn.roundsCount 0 (by omega)
    rw [show feistelSpecStates f fn.roundKeys (block.take h)
        (block.drop h) 0 = (block.take h, block.drop h) from rfl] at this
    rw [this, exceptBind_ok, Nat.zero_add]
  have hdec : ∀ l r : List Nat, l.length = h → r.length = h →
      fn.DecryptBlock F (l ++ r) = .ok
        ((feistelSpecBack f fn.roundKeys fn.roundsCount (l, r)).1 ++
          (feistelSpecBack f fn.roundKeys fn.roundsCount (l, r)).2) := by
    intro l r hl hr
    have hlr : (l ++ r).length = fn.blockSize := by
      rw [List.length_append, hl, hr]; omega
    have hsplit2 : splitBlock (l ++ r) = .ok (l, r) := by
      rw [splitBlock, if_neg (by omega), if_neg (by simp [hlr, hBeven]), hlr]
      have h1 : fn.blockSize / 2 = l.length := by omega
      rw [h1, List.take_left, List.drop_left]
    rw [FeistelNetwork.DecryptBlock, if_neg (by omega), if_neg (by omega),
      hsplit2, exceptBind_ok,
      decRounds_back f F fn.roundKeys h hh hF fn.roundsCount l r
        (by omega) hl hr, exceptBind_ok]
  refine ⟨henc, hdec, fun ct hct => ?_⟩
  rw [henc] at hct
  injection hct with hct
  subst hct
  rw [hdec _ _ (hlen fn.roundsCount).1 (hlen fn.roundsCount).2,
    specBack_inverts f fn.roundKeys h (block.take h) (block.drop h)
      hf htake hdrop fn.roundsCount]
  rw [List.take_append_drop]

/-- C3 (witness): the identity round function on a 2-byte block with two
rounds; the published ciphertext is the spec recurrence's output, and
decryption recovers the block. -/
theorem c3_feistel_structure_witness :
    FeistelNetwork.DecryptBlock ⟨2, 2, [], [[5], [6]]⟩
        (fun x _ => .ok x) [7, 3] = .ok [3, 4] := by
  have main := c3_feistel_structure ⟨2, 2, [], [[5], [6]]⟩
    (fun x _ => .ok x) (fun x _ => x) [3, 4] (by decide) (by decide)
    (by decide) (by decide) (by decide) (fun x k hx => ⟨rfl, hx⟩)
  exact main.2.2 [7, 3] (by decide)

/-- The round loop crashes with an out-of-bounds index when it runs past the
stored round-key list. -/
theorem encRounds_oob (f : List Nat → List Nat → List Nat)
    (F : List Nat → List Nat → Except String (List Nat))
    (keys : List (List Nat)) (h : Nat) (hh : h ≠ 0)
    (hF : ∀ x k, x.length = h →
      F x k = .ok (f x k) ∧ (f x k).length = h) :
    ∀ c i l r, l.length = h → r.length = h → keys.length < i + c →
      i ≤ keys.length →
      encRounds F keys c i l r = .error "index out of range" := by
  intro c
  induction c with
  | zero => intro i l r _ _ hlt hle; omega
  | succ c ih =>
    intro i l r hl hr hlt hle
    by_cases hi : i < keys.length
    · have hk : keys[i]? = some keys[i] := List.getElem?_eq_getElem hi
      have hFi := hF r keys[i] hr
      have hxor := xorBlocksF_ok h l (f r keys[i]) hl hFi.2 hh
      simp only [encRounds, hk, hFi.1, hxor, exceptBind_ok]
      exact ih (i + 1) r (xorB l (f r keys[i])) hr
        (by rw [xorB_length, hl, hFi.2]; omega) (by omega) (by omega)
    · have hi2 : i = keys.length := by omega
      have hk : keys[i]? = none := by
        rw [List.getElem?_eq_none_iff]; omega
      simp only [encRounds, hk]

/-- C10: when the key schedule yields a non-empty list shorter than
`roundsCount`, `SetKey` stores it in `roundKeys` before returning the
insufficient-round-keys error; a subsequent `EncryptBlock` passes the
key-not-set guard (which only tests emptiness) and crashes indexing
`roundKeys[round]` out of bounds — it does not fail with the key-not-set
error. -/
theorem c10_setkey_stores_short_schedule (fn : FeistelNetwork)
    (schedule : List Nat → Except String (List (List Nat)))
    (key : List Nat) (ks : List (List Nat)) (block : List Nat)
    (F : List Nat → List Nat → Except String (List Nat))
    (f : List Nat → List Nat → List Nat)
    (hsched : schedule key = .ok ks) (hkey : key.length ≠ 0)
    (hks0 : 0 < ks.length) (hkslt : ks.length < fn.roundsCount)
    (hblock : block.length = fn.blockSize)
    (hBpos : 0 < fn.blockSize) (hBeven : fn.blockSize % 2 = 0)
    (hF : ∀ x k, x.length = fn.blockSize / 2 →
      F x k = .ok (f x k) ∧ (f x k).length = fn.blockSize / 2) :
    (fn.SetKey schedule key).2 =
        .error "key schedule generated insufficient round keys" ∧
      (fn.SetKey schedule key).1.roundKeys = ks ∧
      (fn.SetKey schedule key).1.EncryptBlock F block =
        .error "index out of range" ∧
      (fn.SetKey schedule key).1.EncryptBlock F block ≠
        .error "key not set" := by
  have hset : fn.SetKey schedule key =
      ({ fn with currentKey := key, roundKeys := ks },
        .error "key schedule generated insufficient round keys") := by
    rw [FeistelNetwork.SetKey, if_neg hkey]
    simp only [hsched]
    rw [if_pos hkslt]
  set h := fn.blockSize / 2 with hh_def
  have hh : h ≠ 0 := by omega
  have htake : (block.take h).length = h := by
    rw [List.length_take]; omega
  have hdrop : (block.drop h).length = h := by
    rw [List.length_drop]; omega
  have hsplit : splitBlock block =
      .ok (block.take h, block.drop h) := by
    rw [splitBlock, if_neg (by omega), if_neg (by simp [hblock, hBeven]),
      hblock]
  have henc : ({ fn with currentKey := key, roundKeys := ks } :
      FeistelNetwork).EncryptBlock F block =
      .error "index out of range" := by
    rw [FeistelNetwork.EncryptBlock, if_neg (by simp [hblock]),
      if_neg (show ¬ (ks.length = 0) by omega), hsplit, exceptBind_ok,
      encRounds_oob f F ks h hh hF fn.roundsCount 0 (block.take h)
        (block.drop h) htake hdrop (by simpa using hkslt) (by omega)]
    rfl
  rw [hset]
  refine ⟨rfl, rfl, henc, ?_⟩
  rw [henc]
  intro hcontra
  injection hcontra with hmsg
  simp at hmsg

/-! ## Cipher context and mode driver (`cipher_context.go`)

The Go loops advance through the data by at least one byte per iteration;
they are embedded as structurally recursive functions over an explicit fuel
counter initialised to the data length, which therefore never runs out when
the block size is positive (for block size 0 the Go loops never terminate,
which no claim exercises). -/

/-- `CipherContext.incrementCounter`: big-endian increment, last byte first,
carrying into the previous byte on wrap (`uint8` arithmetic). -/
def incAux : List Nat → List Nat
  | [] => []
  | c :: rest =>
    if (c + 1) % 256 = 0 then 0 :: incAux rest else ((c + 1) % 256) :: rest

/-- `incrementCounter` walks from the last byte backwards, so it is `incAux`
on the reversed byte string. -/
def incrementCounter (counter : List Nat) : List Nat :=
  (incAux counter.reverse).reverse

/-- `n` applications of `incrementCounter` (the per-worker counter
initialisation loop of `encryptCTRParallel`). -/
def incN : Nat → List Nat → List Nat
  | 0, c => c
  | n + 1, c => incN n (incrementCounter c)

/-- `block := make([]uint8, n); copy(block, src)`: truncate or zero-extend
to exactly `n` bytes. -/
def padTo (n : Nat) (l : List Nat) : List Nat :=
  l.take n ++ List.replicate (n - l.length) 0

/-- The `ISymmetricCipher` interface. -/
structure SymCipher where
  setKey : List Nat → Except String Unit
  encryptBlock : List Nat → Except String (List Nat)
  decryptBlock : List Nat → Except String (List Nat)

/-- `CipherContext` (the `parallel` field only feeds `EncryptFile` /
`DecryptFile`, which are not modelled). -/
structure CipherContext where
  cipher : SymCipher
  key : List Nat
  mode : CipherMode
  paddingMode : PaddingMode
  iv : List Nat
  blockSize : Nat
  parallel : Bool

/-- `NewCipherContext`: the cipher is non-nil by construction here; `SetKey`
delegates to the cipher, and an empty IV with a non-ECB mode is replaced by
`blockSize` zero bytes — any other IV is copied as supplied. -/
def NewCipherContext (cipher : SymCipher) (key : List Nat)
    (mode : CipherMode) (paddingMode : PaddingMode) (iv : List Nat)
    (blockSize : Nat) (parallel : Bool) : Except String CipherContext :=
  match cipher.setKey key with
  | .error e => .error e
  | .ok _ =>
    .ok { cipher := cipher, key := key, mode := mode,
          paddingMode := paddingMode,
          iv := (if iv.length = 0 ∧ mode ≠ .ECB then
            List.replicate blockSize 0 else iv),
          blockSize := blockSize, parallel := parallel }

/-- The sequential block loop of `CipherContext.Encrypt`: one fuel unit per
iteration, `rnd` the stream of RandomDelta masks, `cur` the chaining state
(`currentBlock`).  Returns the list of emitted ciphertext blocks
(RandomDelta emits the mask followed by the encrypted block). -/
def encryptSeqGo (E : List Nat → Except String (List Nat))
    (mode : CipherMode) (B : Nat) :
    Nat → List (List Nat) → List Nat → List Nat →
    Except String (List (List Nat))
  | 0, _, _, _ => .ok []
  | fuel + 1, rnd, cur, l =>
    if l.length = 0 then .ok []
    else
      let block := padTo B (l.take B)
      match mode with
      | .ECB => do
        let eb ← E block
        let rest ← encryptSeqGo E mode B fuel rnd cur (l.drop B)
        .ok (eb :: rest)
      | .CBC => do
        let eb ← E (xorB block cur)
        let rest ← encryptSeqGo E mode B fuel rnd eb (l.drop B)
        .ok (eb :: rest)
      | .PCBC => do
        let eb ← E (xorB block cur)
        let rest ← encryptSeqGo E mode B fuel rnd (xorB block eb) (l.drop B)
        .ok (eb :: rest)
      | .CFB => do
        let ec ← E cur
        let rest ← encryptSeqGo E mode B fuel rnd (xorB ec block) (l.drop B)
        .ok (xorB ec block :: rest)
      | .OFB => do
        let nc ← E cur
        let rest ← encryptSeqGo E mode B fuel rnd nc (l.drop B)
        .ok (xorB nc block :: rest)
      | .CTR => do
        let ec ← E cur
        let rest ← encryptSeqGo E mode B fuel rnd (incrementCounter cur)
          (l.drop B)
        .ok (xorB ec block :: rest)
      | .RandomDelta => do
        let delta := rnd.headD []
        let eb ← E (xorB block delta)
        let rest ← encryptSeqGo E mode B fuel rnd.tail cur (l.drop B)
        .ok (delta :: eb :: rest)

/-- The sequential block loop of `CipherContext.Decrypt`: the loop breaks
when fewer than `blockSize` bytes remain; RandomDelta advances by `2·B` and
zero-extends a short trailing encrypted block. -/
def decryptSeqGo (E D : List Nat → Except String (List Nat))
    (mode : CipherMode) (B : Nat) :
    Nat → List Nat → List Nat → Except String (List (List Nat))
  | 0, _, _ => .ok []
  | fuel + 1, cur, l =>
    if l.length < B then .ok []
    else
      match mode with
      | .ECB => do
        let db ← D (l.take B)
        let rest ← decryptSeqGo E D mode B fuel cur (l.drop B)
        .ok (db :: rest)
      | .CBC => do
        let db ← D (l.take B)
        let rest ← decryptSeqGo E D mode B fuel (l.take B) (l.drop B)
        .ok (xorB db cur :: rest)
      | .PCBC => do
        let db ← D (l.take B)
        let rest ← decryptSeqGo E D mode B fuel
          (xorB (xorB db cur) (l.take B)) (l.drop B)
        .ok (xorB db cur :: rest)
      | .CFB => do
        let ec ← E cur
        let rest ← decryptSeqGo E D mode B fuel (l.take B) (l.drop B)
        .ok (xorB ec (l.take B) :: rest)
      | .OFB => do
        let nc ← E cur
        let rest ← decryptSeqGo E D mode B fuel nc (l.drop B)
        .ok (xorB nc (l.take B) :: rest)
      | .CTR => do
        let ec ← E cur
        let rest ← decryptSeqGo E D mode B fuel (incrementCounter cur)
          (l.drop B)
        .ok (xorB ec (l.take B) :: rest)
      | .RandomDelta => do
        let delta := l.take B
        let block := padTo B ((l.drop B).take B)
        let db ← D block
        let rest ← decryptSeqGo E D mode B fuel cur (l.drop (2 * B))
        .ok (xorB db delta :: rest)

/-- The `numBlocks` consecutive full `B`-byte blocks of `l`, fuel-driven. -/
def chunksGo (B : Nat) : Nat → List Nat → List (List Nat)
  | 0, _ => []
  | fuel + 1, l =>
    if l.length < B then [] else l.take B :: chunksGo B fuel (l.drop B)

/-- The full blocks `l[i·B : (i+1)·B]` for `i < len(l)/B`. -/
def fullBlocks (B : Nat) (l : List Nat) : List (List Nat) :=
  chunksGo B l.length l

/-- The contiguous per-worker block ranges
`[t·blocksPerThread, min((t+1)·blocksPerThread, numBlocks))`, stopping at
the first empty range, for `tc` remaining workers starting at worker `t`. -/
def threadChunks (bpt : Nat) (blocks : List (List Nat)) :
    Nat → Nat → List (List (List Nat))
  | 0, _ => []
  | tc + 1, t =>
    if blocks.length ≤ t * bpt then []
    else (blocks.drop (t * bpt)).take bpt :: threadChunks bpt blocks tc (t + 1)

/-- `CipherContext.encryptECBParallel` (and its decryption twin): the
workers each encrypt a contiguous range of blocks and write the results at
the blocks' absolute offsets into a zero-initialised output buffer of the
input's length; for a block-size-preserving cipher that buffer is the
ordered concatenation of the per-block outputs with the ragged tail left
zero, which is how it is written here.  The first worker error aborts the
whole call.  `len(l) / B` crashes in Go when `B = 0`. -/
def ecbParallel (C : List Nat → Except String (List Nat))
    (B numThreads : Nat) (l : List Nat) : Except String (List Nat) :=
  if B = 0 then .error "integer divide by zero"
  else
    let nb := l.length / B
    let bpt := (nb + numThreads - 1) / numThreads
    do
      let groups ← (threadChunks bpt (fullBlocks B l) numThreads 0).mapM
        (fun g => g.mapM C)
      .ok (groups.flatten.flatten ++ List.replicate (l.length - nb * B) 0)

/-- `CipherContext.encryptECBParallel`. -/
def encryptECBParallel (E : List Nat → Except String (List Nat))
    (B numThreads : Nat) (l : List Nat) : Except String (List Nat) :=
  ecbParallel E B numThreads l

/-- `CipherContext.decryptECBParallel`. -/
def decryptECBParallel (D : List Nat → Except String (List Nat))
    (B numThreads : Nat) (l : List Nat) : Except String (List Nat) :=
  ecbParallel D B numThreads l

/-- One CTR worker: encrypt the counter, XOR with the data block, increment,
over the worker's contiguous block range. -/
def ctrWorker (E : List Nat → Except String (List Nat))
    (counter : List Nat) : List (List Nat) → Except String (List (List Nat))
  | [] => .ok []
  | b :: rest => do
    let ec ← E counter
    let out ← pure (xorB ec b)
    let rest' ← ctrWorker E (incrementCounter counter) rest
    .ok (out :: rest')

/-- The CTR worker pool: worker `t` initialises its local counter to the IV
incremented `t·blocksPerThread` times and runs `ctrWorker` over its
contiguous block range. -/
def ctrThreads (E : List Nat → Except String (List Nat)) (bpt : Nat)
    (iv : List Nat) : List (List (List Nat)) → Nat →
    Except String (List (List (List Nat)))
  | [], _ => .ok []
  | g :: gs, t => do
    let o ← ctrWorker E (incN (t * bpt) iv) g
    let os ← ctrThreads E bpt iv gs (t + 1)
    .ok (o :: os)

/-- `CipherContext.encryptCTRParallel`: the thread count is clamped to the
block count; each worker `t` starts from the IV incremented
`t·blocksPerThread` times (the shared IV itself is only read).  When the
clamp yields 0 threads, Go crashes computing `blocksPerThread` with an
integer division by zero. -/
def encryptCTRParallel (E : List Nat → Except String (List Nat))
    (B numThreads : Nat) (iv : List Nat) (l : List Nat) :
    Except String (List Nat) :=
  if B = 0 then .error "integer divide by zero"
  else
    let nb := l.length / B
    let nt := if numThreads > nb then nb else numThreads
    if nt = 0 then .error "integer divide by zero"
    else
      let bpt := (nb + nt - 1) / nt
      do
        let outs ← ctrThreads E bpt iv (threadChunks bpt (fullBlocks B l) nt 0) 0
        .ok (outs.flatten.flatten ++ List.replicate (l.length - nb * B) 0)

/-- `CipherContext.decryptCTRParallel` simply calls `encryptCTRParallel`. -/
def decryptCTRParallel (E : List Nat → Except String (List Nat))
    (B numThreads : Nat) (iv : List Nat) (l : List Nat) :
    Except String (List Nat) :=
  encryptCTRParallel E B numThreads iv l

/-- `CipherContext.Encrypt`.  `numThreads` is `runtime.NumCPU()`;
`rndDelta` and `rndPad` are the random streams consumed by RandomDelta mode
and ISO 10126 padding.  The sequential path copies the IV into a fresh
`blockSize` buffer (`padTo`). -/
def Encrypt (ctx : CipherContext) (numThreads : Nat)
    (rndDelta : List (List Nat)) (rndPad : List Nat) (plaintext : List Nat)
    (parallel : Bool) : Except String (List Nat) :=
  let padded := applyPadding ctx.paddingMode ctx.blockSize rndPad plaintext
  if ctx.mode = .ECB ∧ parallel then
    encryptECBParallel ctx.cipher.encryptBlock ctx.blockSize numThreads padded
  else if ctx.mode = .CTR ∧ parallel then
    encryptCTRParallel ctx.cipher.encryptBlock ctx.blockSize numThreads
      ctx.iv padded
  else do
    let blocks ← encryptSeqGo ctx.cipher.encryptBlock ctx.mode ctx.blockSize
      padded.length rndDelta (padTo ctx.blockSize ctx.iv) padded
    .ok blocks.flatten

/-- `CipherContext.Decrypt`.  The sequential path's chaining state starts as
a copy of the IV at the IV's own length. -/
def Decrypt (ctx : CipherContext) (numThreads : Nat)
    (ciphertext : List Nat) (parallel : Bool) : Except String (List Nat) :=
  if ctx.mode = .ECB ∧ parallel then do
    let pt ← decryptECBParallel ctx.cipher.decryptBlock ctx.blockSize
      numThreads ciphertext
    .ok (removePadding ctx.paddingMode ctx.blockSize pt)
  else if ctx.mode = .CTR ∧ parallel then do
    let pt ← encryptCTRParallel ctx.cipher.encryptBlock ctx.blockSize
      numThreads ctx.iv ciphertext
    .ok (removePadding ctx.paddingMode ctx.blockSize pt)
  else do
    let blocks ← decryptSeqGo ctx.cipher.encryptBlock
      ctx.cipher.decryptBlock ctx.mode ctx.blockSize ciphertext.length
      ctx.iv ciphertext
    .ok (removePadding ctx.paddingMode ctx.blockSize blocks.flatten)

/-- The identity block cipher: a legitimate `ISymmetricCipher` whose
`EncryptBlock` and `DecryptBlock` return the block unchanged. -/
def idCipher : SymCipher :=
  { setKey := fun _ => .ok (),
    encryptBlock := fun b => .ok b,
    decryptBlock := fun b => .ok b }

/-! ## C9 — IV length validation -/

/-- C9 (counterexample): a CBC context with block size 8 and a 3-byte IV is
constructed without any error; the mismatched IV is stored as supplied. -/
theorem c9_counterexample :
    NewCipherContext idCipher [] .CBC .PKCS7 [1, 2, 3] 8 false =
        .ok { cipher := idCipher, key := [], mode := .CBC,
              paddingMode := .PKCS7, iv := [1, 2, 3], blockSize := 8,
              parallel := false } ∧
      ([1, 2, 3] : List Nat).length ≠ 8 ∧ CipherMode.CBC ≠ .ECB :=
  ⟨rfl, by decide, by decide⟩

/-- C9 (amended): `NewCipherContext` never validates the IV length.
Whenever the cipher accepts the key it succeeds, and the stored IV is
`blockSize` zero bytes when an empty IV is supplied with a non-ECB mode,
and otherwise exactly the supplied IV, whatever its length; so a non-ECB
context may hold an IV of any length. -/
theorem c9_amended (cipher : SymCipher) (key : List Nat) (mode : CipherMode)
    (paddingMode : PaddingMode) (iv : List Nat) (blockSize : Nat)
    (parallel : Bool) (hset : cipher.setKey key = .ok ()) :
    NewCipherContext cipher key mode paddingMode iv blockSize parallel =
      .ok { cipher := cipher, key := key, mode := mode,
            paddingMode := paddingMode,
            iv := (if iv.length = 0 ∧ mode ≠ .ECB then
              List.replicate blockSize 0 else iv),
            blockSize := blockSize, parallel := parallel } := by
  rw [NewCipherContext, hset]

/-- C9 (witness): the amended construction law at a concrete CBC context
with a 3-byte IV and block size 8. -/
theorem c9_amended_witness :
    NewCipherContext idCipher [7] .CBC .PKCS7 [1, 2, 3] 8 false =
      .ok { cipher := idCipher, key := [7], mode := .CBC,
            paddingMode := .PKCS7,
            iv := (if ([1, 2, 3] : List Nat).length = 0 ∧
              CipherMode.CBC ≠ .ECB then List.replicate 8 0 else [1, 2, 3]),
            blockSize := 8, parallel := false } :=
  c9_amended idCipher [7] .CBC .PKCS7 [1, 2, 3] 8 false rfl

/-- C10 (witness): a schedule producing one round key for a two-round
network. -/
theorem c10_setkey_stores_short_schedule_witness :
    (FeistelNetwork.SetKey ⟨2, 2, [], []⟩ (fun _ => .ok [[9]]) [1]).2 =
        .error "key schedule generated insufficient round keys" ∧
      (FeistelNetwork.SetKey ⟨2, 2, [], []⟩ (fun _ => .ok [[9]]) [1]).1.roundKeys
        = [[9]] ∧
      (FeistelNetwork.SetKey ⟨2, 2, [], []⟩ (fun _ => .ok [[9]])
          [1]).1.EncryptBlock (fun x _ => .ok x) [3, 4] =
        .error "index out of range" ∧
      (FeistelNetwork.SetKey ⟨2, 2, [], []⟩ (fun _ => .ok [[9]])
          [1]).1.EncryptBlock (fun x _ => .ok x) [3, 4] ≠
        .error "key not set" :=
  c10_setkey_stores_short_schedule ⟨2, 2, [], []⟩ (fun _ => .ok [[9]]) [1]
    [[9]] [3, 4] (fun x _ => .ok x) (fun x _ => x) rfl (by decide)
    (by decide) (by decide) (by decide) (by decide) (by decide)
    (fun x k hx => ⟨rfl, hx⟩)

/-! ## Round-trip of the sequential mode driver (C1) -/

theorem padTo_of_length (n : Nat) (l : List Nat) (h : l.length = n) :
    padTo n l = l := by
  subst h
  simp [padTo]

theorem take_append_of_length {α : Type} (a b : List α) (n : Nat)
    (h : a.length = n) : (a ++ b).take n = a := by
  subst h
  exact List.take_left a b

theorem drop_append_of_length {α : Type} (a b : List α) (n : Nat)
    (h : a.length = n) : (a ++ b).drop n = b := by
  subst h
  exact List.drop_left a b

theorem xorB_cancel_left (a b : List Nat) (h : a.length = b.length) :
    xorB a (xorB a b) = b := by
  induction a generalizing b with
  | nil => cases b <;> simp_all [xorB]
  | cons x xs ih =>
    cases b with
    | nil => simp at h
    | cons y ys =>
      simp only [xorB, List.zipWith_cons_cons]
      have := ih ys (by simpa using h)
      simp only [xorB] at this
      simp [this, Nat.xor_cancel_left]

theorem incAux_length (l : List Nat) : (incAux l).length = l.length := by
  induction l with
  | nil => rfl
  | cons c rest ih =>
    rw [incAux]
    split
    · simpa using ih
    · rfl

theorem incrementCounter_length (c : List Nat) :
    (incrementCounter c).length = c.length := by
  rw [incrementCounter, List.length_reverse, incAux_length,
    List.length_reverse]

theorem incN_length (n : Nat) (c : List Nat) :
    (incN n c).length = c.length := by
  induction n generalizing c with
  | zero => rfl
  | succ n ih => rw [incN, ih, incrementCounter_length]

/-- Core round-trip of the sequential loops: for every mode, when the
cipher's `DecryptBlock` inverts its `EncryptBlock` on `B`-byte blocks, the
decryption loop applied to the encryption loop's output reproduces the
padded input, block for block, from the same chaining state. -/
theorem seqRoundtrip (E D : List Nat → Except String (List Nat)) (B : Nat)
    (hB : 0 < B)
    (hED : ∀ b : List Nat, b.length = B →
      ∃ c, E b = .ok c ∧ c.length = B ∧ D c = .ok b)
    (m : CipherMode) :
    ∀ (fuel : Nat) (l cur : List Nat) (rnd : List (List Nat)),
      l.length ≤ fuel → B ∣ l.length → cur.length = B →
      (∀ d ∈ rnd, d.length = B) → l.length ≤ rnd.length →
      ∃ cbl dbl,
        encryptSeqGo E m B fuel rnd cur l = .ok cbl ∧
        cbl.flatten.length =
          (if m = .RandomDelta then 2 * l.length else l.length) ∧
        (∀ fuelD, cbl.flatten.length ≤ fuelD →
          decryptSeqGo E D m B fuelD cur cbl.flatten = .ok dbl) ∧
        dbl.flatten = l := by
  intro fuel
  induction fuel with
  | zero =>
    intro l cur rnd hfuel hdvd hcur hrnd hrndlen
    have hl : l = [] := List.length_eq_zero.mp (by omega)
    subst hl
    refine ⟨[], [], rfl, by simp, fun fuelD _ => ?_, rfl⟩
    cases fuelD with
    | zero => rfl
    | succ fd =>
      simp only [List.flatten_nil, decryptSeqGo, List.length_nil, if_pos hB]
  | succ fuel ih =>
    intro l cur rnd hfuel hdvd hcur hrnd hrndlen
    by_cases hl : l.length = 0
    · have hl2 : l = [] := List.length_eq_zero.mp hl
      subst hl2
      refine ⟨[], [], by simp [encryptSeqGo], by simp,
        fun fuelD _ => ?_, rfl⟩
      cases fuelD with
      | zero => rfl
      | succ fd =>
        simp only [List.flatten_nil, decryptSeqGo, List.length_nil, if_pos hB]
    · have hlB : B ≤ l.length := Nat.le_of_dvd (Nat.pos_of_ne_zero hl) hdvd
      have htake : (l.take B).length = B := by
        rw [List.length_take]; omega
      have hdrop_dvd : B ∣ (l.drop B).length := by
        rw [List.length_drop]
        exact Nat.dvd_sub' hdvd dvd_rfl
      have hdrop_le : (l.drop B).length ≤ fuel := by
        rw [List.length_drop]; omega
      have hblock : padTo B (l.take B) = l.take B := padTo_of_length _ _ htake
      cases m with
      | ECB =>
        obtain ⟨eb, hE, hebl, hD⟩ := hED (l.take B) htake
        obtain ⟨cbl', dbl', henc', hlen', hdec', hjoin'⟩ :=
          ih (l.drop B) cur rnd hdrop_le hdrop_dvd hcur hrnd (by
            rw [List.length_drop]; omega)
        simp only [if_neg (by decide : ¬(CipherMode.ECB = .RandomDelta))]
          at hlen'
        refine ⟨eb :: cbl', l.take B :: dbl', ?_, ?_, ?_, ?_⟩
        · simp only [encryptSeqGo, if_neg hl, hblock, hE, exceptBind_ok,
            henc']
        · simp only [List.flatten_cons, List.length_append, hebl, hlen',
            if_neg (by decide : ¬(CipherMode.ECB = .RandomDelta))]
          rw [List.length_drop]; omega
        · intro fuelD hfD
          simp only [List.flatten_cons, List.length_append, hebl, hlen']
            at hfD
          cases fuelD with
          | zero => omega
          | succ fd =>
            simp only [decryptSeqGo, List.flatten_cons]
            rw [if_neg (by simp only [List.length_append, hebl]; omega),
              take_append_of_length eb cbl'.flatten B hebl,
              drop_append_of_length eb cbl'.flatten B hebl, hD,
              exceptBind_ok, hdec' fd (by omega), exceptBind_ok]
        · simp [hjoin']
      | CBC =>
        obtain ⟨eb, hE, hebl, hD⟩ := hED (xorB (l.take B) cur)
          (by rw [xorB_length, htake, hcur]; omega)
        obtain ⟨cbl', dbl', henc', hlen', hdec', hjoin'⟩ :=
          ih (l.drop B) eb rnd hdrop_le hdrop_dvd hebl hrnd (by
            rw [List.length_drop]; omega)
        simp only [if_neg (by decide : ¬(CipherMode.CBC = .RandomDelta))]
          at hlen'
        have hdb : xorB (xorB (l.take B) cur) cur = l.take B :=
          xorB_cancel _ _ (by rw [htake, hcur])
        refine ⟨eb :: cbl', l.take B :: dbl', ?_, ?_, ?_, ?_⟩
        · simp only [encryptSeqGo, if_neg hl, hblock, hE, exceptBind_ok,
            henc']
        · simp only [List.flatten_cons, List.length_append, hebl, hlen',
            if_neg (by decide : ¬(CipherMode.CBC = .RandomDelta))]
          rw [List.length_drop]; omega
        · intro fuelD hfD
          simp only [List.flatten_cons, List.length_append, hebl, hlen']
            at hfD
          cases fuelD with
          | zero => omega
          | succ fd =>
            simp only [decryptSeqGo, List.flatten_cons]
            rw [if_neg (by simp only [List.length_append, hebl]; omega),
              take_append_of_length eb cbl'.flatten B hebl,
              drop_append_of_length eb cbl'.flatten B hebl, hD,
              exceptBind_ok, hdec' fd (by omega), exceptBind_ok, hdb]
        · simp [hjoin']
      | PCBC =>
        obtain ⟨eb, hE, hebl, hD⟩ := hED (xorB (l.take B) cur)
          (by rw [xorB_length, htake, hcur]; omega)
        obtain ⟨cbl', dbl', henc', hlen', hdec', hjoin'⟩ :=
          ih (l.drop B) (xorB (l.take B) eb) rnd hdrop_le hdrop_dvd
            (by rw [xorB_length, htake, hebl]; omega) hrnd (by
            rw [List.length_drop]; omega)
        simp only [if_neg (by decide : ¬(CipherMode.PCBC = .RandomDelta))]
          at hlen'
        have hdb : xorB (xorB (l.take B) cur) cur = l.take B :=
          xorB_cancel _ _ (by rw [htake, hcur])
        refine ⟨eb :: cbl', l.take B :: dbl', ?_, ?_, ?_, ?_⟩
        · simp only [encryptSeqGo, if_neg hl, hblock, hE, exceptBind_ok,
            henc']
        · simp only [List.flatten_cons, List.length_append, hebl, hlen',
            if_neg (by decide : ¬(CipherMode.PCBC = .RandomDelta))]
          rw [List.length_drop]; omega
        · intro fuelD hfD
          simp only [List.flatten_cons, List.length_append, hebl, hlen']
            at hfD
          cases fuelD with
          | zero => omega
          | succ fd =>
            simp only [decryptSeqGo, List.flatten_cons]
            rw [if_neg (by simp only [List.length_append, hebl]; omega),
              take_append_of_length eb cbl'.flatten B hebl,
              drop_append_of_length eb cbl'.flatten B hebl, hD,
              exceptBind_ok, hdb, hdec' fd (by omega), exceptBind_ok]
        · simp [hjoin']
      | CFB =>
        obtain ⟨ec, hE, hecl, _⟩ := hED cur hcur
        obtain ⟨cbl', dbl', henc', hlen', hdec', hjoin'⟩ :=
          ih (l.drop B) (xorB ec (l.take B)) rnd hdrop_le hdrop_dvd
            (by rw [xorB_length, hecl, htake]; omega) hrnd (by
            rw [List.length_drop]; omega)
        simp only [if_neg (by decide : ¬(CipherMode.CFB = .RandomDelta))]
          at hlen'
        have hout : (xorB ec (l.take B)).length = B := by
          rw [xorB_length, hecl, htake]; omega
        have hdb : xorB ec (xorB ec (l.take B)) = l.take B :=
          xorB_cancel_left _ _ (by rw [hecl, htake])
        refine ⟨xorB ec (l.take B) :: cbl', l.take B :: dbl', ?_, ?_, ?_, ?_⟩
        · simp only [encryptSeqGo, if_neg hl, hblock, hE, exceptBind_ok,
            henc']
        · simp only [List.flatten_cons, List.length_append, hout, hlen',
            if_neg (by decide : ¬(CipherMode.CFB = .RandomDelta))]
          rw [List.length_drop]; omega
        · intro fuelD hfD
          simp only [List.flatten_cons, List.length_append, hout, hlen']
            at hfD
          cases fuelD with
          | zero => omega
          | succ fd =>
            simp only [decryptSeqGo, List.flatten_cons]
            rw [if_neg (by simp only [List.length_append, hout]; omega),
              take_append_of_length _ cbl'.flatten B hout,
              drop_append_of_length _ cbl'.flatten B hout, hE,
              exceptBind_ok, hdb, hdec' fd (by omega), exceptBind_ok]
        · simp [hjoin']
      | OFB =>
        obtain ⟨nc, hE, hncl, _⟩ := hED cur hcur
        obtain ⟨cbl', dbl', henc', hlen', hdec', hjoin'⟩ :=
          ih (l.drop B) nc rnd hdrop_le hdrop_dvd hncl hrnd (by
            rw [List.length_drop]; omega)
        simp only [if_neg (by decide : ¬(CipherMode.OFB = .RandomDelta))]
          at hlen'
        have hout : (xorB nc (l.take B)).length = B := by
          rw [xorB_length, hncl, htake]; omega
        have hdb : xorB nc (xorB nc (l.take B)) = l.take B :=
          xorB_cancel_left _ _ (by rw [hncl, htake])
        refine ⟨xorB nc (l.take B) :: cbl', l.take B :: dbl', ?_, ?_, ?_, ?_⟩
        · simp only [encryptSeqGo, if_neg hl, hblock, hE, exceptBind_ok,
            henc']
        · simp only [List.flatten_cons, List.length_append, hout, hlen',
            if_neg (by decide : ¬(CipherMode.OFB = .RandomDelta))]
          rw [List.length_drop]; omega
        · intro fuelD hfD
          simp only [List.flatten_cons, List.length_append, hout, hlen']
            at hfD
          cases fuelD with
          | zero => omega
          | succ fd =>
            simp only [decryptSeqGo, List.flatten_cons]
            rw [if_neg (by simp only [List.length_append, hout]; omega),
              take_append_of_length _ cbl'.flatten B hout,
              drop_append_of_length _ cbl'.flatten B hout, hE,
              exceptBind_ok, hdb, hdec' fd (by omega), exceptBind_ok]
        · simp [hjoin']
      | CTR =>
        obtain ⟨ec, hE, hecl, _⟩ := hED cur hcur
        obtain ⟨cbl', dbl', henc', hlen', hdec', hjoin'⟩ :=
          ih (l.drop B) (incrementCounter cur) rnd hdrop_le hdrop_dvd
            (by rw [incrementCounter_length, hcur]) hrnd (by
            rw [List.length_drop]; omega)
        simp only [if_neg (by decide : ¬(CipherMode.CTR = .RandomDelta))]
          at hlen'
        have hout : (xorB ec (l.take B)).length = B := by
          rw [xorB_length, hecl, htake]; omega
        have hdb : xorB ec (xorB ec (l.take B)) = l.take B :=
          xorB_cancel_left _ _ (by rw [hecl, htake])
        refine ⟨xorB ec (l.take B) :: cbl', l.take B :: dbl', ?_, ?_, ?_, ?_⟩
        · simp only [encryptSeqGo, if_neg hl, hblock, hE, exceptBind_ok,
            henc']
        · simp only [List.flatten_cons, List.length_append, hout, hlen',
            if_neg (by decide : ¬(CipherMode.CTR = .RandomDelta))]
          rw [List.length_drop]; omega
        · intro fuelD hfD
          simp only [List.flatten_cons, List.length_append, hout, hlen']
            at hfD
          cases fuelD with
          | zero => omega
          | succ fd =>
            simp only [decryptSeqGo, List.flatten_cons]
            rw [if_neg (by simp only [List.length_append, hout]; omega),
              take_append_of_length _ cbl'.flatten B hout,
              drop_append_of_length _ cbl'.flatten B hout, hE,
              exceptBind_ok, hdb, hdec' fd (by omega), exceptBind_ok]
        · simp [hjoin']
      | RandomDelta =>
        cases rnd with
        | nil =>
          have h0 : l = [] := by simpa using hrndlen
          exact absurd (by rw [h0]; rfl) hl
        | cons d rnd' =>
          have hd : d.length = B := hrnd d (by simp)
          obtain ⟨eb, hE, hebl, hD⟩ := hED (xorB (l.take B) d)
            (by rw [xorB_length, htake, hd]; omega)
          obtain ⟨cbl', dbl', henc', hlen', hdec', hjoin'⟩ :=
            ih (l.drop B) cur rnd' hdrop_le hdrop_dvd hcur
              (fun x hx => hrnd x (by simp [hx])) (by
              rw [List.length_drop]
              simp at hrndlen
              omega)
          simp only [eq_self_iff_true, if_true] at hlen'
          have hdb : xorB (xorB (l.take B) d) d = l.take B :=
            xorB_cancel _ _ (by rw [htake, hd])
          have h2B : (d ++ eb).length = 2 * B := by
            rw [List.length_append, hd, hebl]; omega
          refine ⟨d :: eb :: cbl', l.take B :: dbl', ?_, ?_, ?_, ?_⟩
          · simp only [encryptSeqGo, if_neg hl, hblock, List.headD_cons,
              hE, exceptBind_ok, List.tail_cons, henc']
          · simp only [List.flatten_cons, List.length_append, hd, hebl,
              hlen', eq_self_iff_true, if_true]
            rw [List.length_drop]; omega
          · intro fuelD hfD
            simp only [List.flatten_cons, List.length_append, hd, hebl,
              hlen'] at hfD
            cases fuelD with
            | zero => omega
            | succ fd =>
              simp only [decryptSeqGo, List.flatten_cons]
              have hjlen : (d ++ (eb ++ cbl'.flatten)).length =
                  2 * B + cbl'.flatten.length := by
                simp only [List.length_append, hd, hebl]; omega
              rw [← List.flatten_cons, ← List.flatten_cons]
              simp only [List.flatten_cons]
              rw [if_neg (by simp only [List.length_append, hd]; omega),
                take_append_of_length d (eb ++ cbl'.flatten) B hd,
                drop_append_of_length d (eb ++ cbl'.flatten) B hd,
                take_append_of_length eb cbl'.flatten B hebl,
                padTo_of_length B eb hebl, hD, exceptBind_ok,
                show d ++ (eb ++ cbl'.flatten) =
                  (d ++ eb) ++ cbl'.flatten by simp,
                drop_append_of_length (d ++ eb) cbl'.flatten (2 * B) h2B,
                hdec' fd (by omega), exceptBind_ok, hdb]
          · simp [hjoin']

/-! ## Padding removal inverts padding application (PKCS7 / ANSI / ISO) -/

theorem getLastD_concat (l : List Nat) (a : Nat) :
    (l ++ [a]).getLastD 0 = a := by
  rw [List.getLastD_eq_getLast?, List.getLast?_concat]; rfl

theorem getLastD_append_replicate (x : List Nat) (p v : Nat)
    (hp : 1 ≤ p) : (x ++ List.replicate p v).getLastD 0 = v := by
  cases p with
  | zero => omega
  | succ q =>
    rw [List.replicate_succ', ← List.append_assoc, getLastD_concat]

theorem all_replicate_self (n v : Nat) :
    (List.replicate n v).all (fun y => y = v) = true := by
  rw [List.all_eq_true]
  intro y hy
  simpa using List.eq_of_mem_replicate hy

theorem removePadding_pkcs7_strip (B : Nat) (x : List Nat) (p : Nat)
    (hp1 : 1 ≤ p) (hpB : p ≤ B) :
    removePadding .PKCS7 B (x ++ List.replicate p p) = x := by
  have hlen : (x ++ List.replicate p p).length = x.length + p := by simp
  have hlast : (x ++ List.replicate p p).getLastD 0 = p :=
    getLastD_append_replicate x p p hp1
  unfold removePadding
  split
  · next h => rw [hlen] at h; omega
  · split
    · next h => rw [hlast, hlen] at h; omega
    · rw [hlast, hlen]
      have harith : x.length + p - p = x.length := by omega
      rw [harith, drop_append_of_length x (List.replicate p p) x.length rfl,
        take_append_of_length x (List.replicate p p) x.length rfl,
        if_pos (all_replicate_self p p)]

theorem removePadding_ansi_strip (B : Nat) (x : List Nat) (p : Nat)
    (hp1 : 1 ≤ p) (hpB : p ≤ B) :
    removePadding .ANSIX923 B
      (x ++ (List.replicate (p - 1) 0 ++ [p])) = x := by
  have htail : (List.replicate (p - 1) 0 ++ [p]).length = p := by
    simp; omega
  have hlen : (x ++ (List.replicate (p - 1) 0 ++ [p])).length =
      x.length + p := by simp; omega
  have hlast : (x ++ (List.replicate (p - 1) 0 ++ [p])).getLastD 0 = p := by
    rw [← List.append_assoc, getLastD_concat]
  unfold removePadding
  split
  · next h => rw [hlen] at h; omega
  · split
    · next h => rw [hlast, hlen] at h; omega
    · rw [hlast, hlen]
      have harith : x.length + p - p = x.length := by omega
      rw [harith,
        drop_append_of_length x (List.replicate (p - 1) 0 ++ [p])
          x.length rfl,
        take_append_of_length x (List.replicate (p - 1) 0 ++ [p])
          x.length rfl, List.dropLast_concat,
        if_pos (all_replicate_self (p - 1) 0)]

theorem removePadding_iso_strip (B : Nat) (x r : List Nat) (p : Nat)
    (hp1 : 1 ≤ p) (hpB : p ≤ B) (hr : r.length = p - 1) :
    removePadding .ISO10126 B (x ++ (r ++ [p])) = x := by
  have hlen : (x ++ (r ++ [p])).length = x.length + p := by
    simp [hr]; omega
  have hlast : (x ++ (r ++ [p])).getLastD 0 = p := by
    rw [← List.append_assoc, getLastD_concat]
  unfold removePadding
  split
  · next h => rw [hlen] at h; omega
  · split
    · next h => rw [hlast, hlen] at h; omega
    · rw [hlast, hlen]
      have harith : x.length + p - p = x.length := by omega
      rw [harith, take_append_of_length x (r ++ [p]) x.length rfl]

/-! ## C1 — full-context round trip -/

/-- C1 (amended): for every mode, cipher whose `DecryptBlock` inverts its
length-preserving `EncryptBlock`, key, and block-size-length IV, the
context round trip `Decrypt (Encrypt x)` returns exactly `x` under the
PKCS7, ANSI X.923 and ISO 10126 paddings; under the Zeros padding it
returns the padded plaintext `x ++ zeros` instead, because `removePadding`
is the identity for that scheme. -/
theorem c1_mode_padding_roundtrip (ctx : CipherContext) (numThreads : Nat)
    (rndDelta : List (List Nat)) (rndPad : List Nat) (x : List Nat)
    (hB : 0 < ctx.blockSize) (hB255 : ctx.blockSize ≤ 255)
    (hiv : ctx.iv.length = ctx.blockSize)
    (hED : ∀ b : List Nat, b.length = ctx.blockSize →
      ∃ c, ctx.cipher.encryptBlock b = .ok c ∧ c.length = ctx.blockSize ∧
        ctx.cipher.decryptBlock c = .ok b)
    (hrndD : ∀ d ∈ rndDelta, d.length = ctx.blockSize)
    (hrndDlen : x.length + ctx.blockSize ≤ rndDelta.length)
    (hrndP : ctx.blockSize ≤ rndPad.length) :
    ∃ ct, Encrypt ctx numThreads rndDelta rndPad x false = .ok ct ∧
      Decrypt ctx numThreads ct false =
        .ok (if ctx.paddingMode = .Zeros then
          applyPadding ctx.paddingMode ctx.blockSize rndPad x else x) := by
  have hmod : x.length % ctx.blockSize < ctx.blockSize := Nat.mod_lt _ hB
  have hdm := Nat.div_add_mod x.length ctx.blockSize
  have hpne : ¬ (ctx.blockSize - x.length % ctx.blockSize = 0) := by omega
  have hpad : applyPadding ctx.paddingMode ctx.blockSize rndPad x =
      x ++ (applyPadding ctx.paddingMode ctx.blockSize rndPad x).drop
        x.length := by
    cases hpm : ctx.paddingMode <;>
      simp only [applyPadding, if_neg hpne] <;>
      rw [drop_append_of_length x _ x.length rfl]
  -- length and divisibility of the padded data
  have hplen : (applyPadding ctx.paddingMode ctx.blockSize rndPad x).length
      = x.length + (ctx.blockSize - x.length % ctx.blockSize) := by
    cases hpm : ctx.paddingMode <;>
      simp only [applyPadding, if_neg hpne] <;>
      simp [List.length_take, List.length_replicate] <;> omega
  have hdvd : ctx.blockSize ∣
      (applyPadding ctx.paddingMode ctx.blockSize rndPad x).length := by
    rw [hplen]
    exact ⟨x.length / ctx.blockSize + 1, by rw [Nat.mul_add, Nat.mul_one]; omega⟩
  have hremove : removePadding ctx.paddingMode ctx.blockSize
      (applyPadding ctx.paddingMode ctx.blockSize rndPad x) =
      (if ctx.paddingMode = .Zeros then
        applyPadding ctx.paddingMode ctx.blockSize rndPad x else x) := by
    cases hpm : ctx.paddingMode with
    | Zeros => rw [if_pos rfl, removePadding_zeros_eq]
    | PKCS7 =>
      rw [if_neg (by decide)]
      simp only [applyPadding, if_neg hpne]
      rw [show (ctx.blockSize - x.length % ctx.blockSize) % 256 =
        ctx.blockSize - x.length % ctx.blockSize by omega]
      exact removePadding_pkcs7_strip _ _ _ (by omega) (by omega)
    | ANSIX923 =>
      rw [if_neg (by decide)]
      simp only [applyPadding, if_neg hpne]
      rw [show (ctx.blockSize - x.length % ctx.blockSize) % 256 =
        ctx.blockSize - x.length % ctx.blockSize by omega]
      exact removePadding_ansi_strip _ _ _ (by omega) (by omega)
    | ISO10126 =>
      rw [if_neg (by decide)]
      simp only [applyPadding, if_neg hpne]
      rw [show (ctx.blockSize - x.length % ctx.blockSize) % 256 =
        ctx.blockSize - x.length % ctx.blockSize by omega]
      exact removePadding_iso_strip _ _ _ _ (by omega) (by omega)
        (by rw [List.length_take]; omega)
  have hpadTo : padTo ctx.blockSize ctx.iv = ctx.iv :=
    padTo_of_length _ _ hiv
  obtain ⟨cbl, dbl, henc, hclen, hdec, hjoin⟩ :=
    seqRoundtrip ctx.cipher.encryptBlock ctx.cipher.decryptBlock
      ctx.blockSize hB hED ctx.mode
      (applyPadding ctx.paddingMode ctx.blockSize rndPad x).length
      (applyPadding ctx.paddingMode ctx.blockSize rndPad x) ctx.iv rndDelta
      (le_refl _) hdvd hiv hrndD (by rw [hplen]; omega)
  refine ⟨cbl.flatten, ?_, ?_⟩
  · rw [Encrypt, if_neg (by simp), if_neg (by simp), hpadTo, henc,
      exceptBind_ok]
  · rw [Decrypt, if_neg (by simp), if_neg (by simp),
      hdec cbl.flatten.length (le_refl _), exceptBind_ok, hjoin, hremove]

/-- C1 (counterexample): with the identity cipher at block size 2, mode ECB
and Zeros padding, encrypting the byte string `[1]` pads it to `[1, 0]`,
and decryption returns `[1, 0]` — the appended zero byte is never stripped,
so `Decrypt (Encrypt [1]) ≠ [1]`. -/
theorem c1_counterexample :
    Encrypt ⟨idCipher, [], .ECB, .Zeros, [], 2, false⟩ 1 [] [] [1] false =
        .ok [1, 0] ∧
      Decrypt ⟨idCipher, [], .ECB, .Zeros, [], 2, false⟩ 1 [1, 0] false =
        .ok [1, 0] ∧
      ([1, 0] : List Nat) ≠ [1] :=
  ⟨rfl, rfl, by decide⟩

/-- C1 (witness): the round trip at a concrete CBC/PKCS7 context over the
identity cipher with block size 2 and `x = [1,2,3]`. -/
theorem c1_mode_padding_roundtrip_witness :
    ∃ ct, Encrypt ⟨idCipher, [], .CBC, .PKCS7, [0, 0], 2, false⟩ 1
        [[0, 0], [0, 0], [0, 0], [0, 0], [0, 0]] [0, 0] [1, 2, 3] false =
          .ok ct ∧
      Decrypt ⟨idCipher, [], .CBC, .PKCS7, [0, 0], 2, false⟩ 1 ct false =
        .ok (if PaddingMode.PKCS7 = .Zeros then
          applyPadding .PKCS7 2 [0, 0] [1, 2, 3] else [1, 2, 3]) :=
  c1_mode_padding_roundtrip ⟨idCipher, [], .CBC, .PKCS7, [0, 0], 2, false⟩
    1 [[0, 0], [0, 0], [0, 0], [0, 0], [0, 0]] [0, 0] [1, 2, 3]
    (by decide) (by decide) (by decide)
    (fun b hb => ⟨b, rfl, hb, rfl⟩) (by decide) (by decide) (by decide)

/-! ## C6 — parallel versus sequential ECB and CTR -/

theorem chunksGo_nil (B : Nat) (hB : 0 < B) :
    ∀ fuel, chunksGo B fuel [] = [] := by
  intro fuel
  cases fuel with
  | zero => rfl
  | succ f => simp [chunksGo, hB]

theorem chunksGo_fuel (B : Nat) (hB : 0 < B) :
    ∀ fuel fuel' l, l.length ≤ fuel → l.length ≤ fuel' →
      chunksGo B fuel l = chunksGo B fuel' l := by
  intro fuel
  induction fuel with
  | zero =>
    intro fuel' l h h'
    have hl : l = [] := List.length_eq_zero.mp (by omega)
    subst hl
    simp [chunksGo_nil B hB]
  | succ f ih =>
    intro fuel' l h h'
    cases fuel' with
    | zero =>
      have hl : l = [] := List.length_eq_zero.mp (by omega)
      subst hl
      simp [chunksGo_nil B hB]
    | succ f' =>
      by_cases hlt : l.length < B
      · simp only [chunksGo, if_pos hlt]
      · simp only [chunksGo, if_neg hlt]
        rw [ih f' (l.drop B) (by rw [List.length_drop]; omega)
          (by rw [List.length_drop]; omega)]

theorem fullBlocks_cons (B : Nat) (l : List Nat) (hB : 0 < B)
    (hle : B ≤ l.length) :
    fullBlocks B l = l.take B :: fullBlocks B (l.drop B) := by
  obtain ⟨n, hn⟩ : ∃ n, l.length = n + 1 := ⟨l.length - 1, by omega⟩
  rw [fullBlocks, hn]
  simp only [chunksGo, if_neg (by omega : ¬ l.length < B)]
  congr 1
  rw [fullBlocks]
  exact chunksGo_fuel B hB n ((l.drop B).length) (l.drop B)
    (by rw [List.length_drop]; omega) (le_refl _)

theorem fullBlocks_length (B : Nat) (hB : 0 < B) :
    ∀ fuel l, l.length ≤ fuel → B ∣ l.length →
      (fullBlocks B l).length = l.length / B := by
  intro fuel
  induction fuel with
  | zero =>
    intro l h hd
    have hl : l = [] := List.length_eq_zero.mp (by omega)
    subst hl
    simp [fullBlocks, chunksGo]
  | succ f ih =>
    intro l h hd
    by_cases h0 : l.length = 0
    · have hl : l = [] := List.length_eq_zero.mp h0
      subst hl
      simp [fullBlocks, chunksGo]
    · have hle : B ≤ l.length := Nat.le_of_dvd (Nat.pos_of_ne_zero h0) hd
      rw [fullBlocks_cons B l hB hle, List.length_cons,
        ih (l.drop B) (by rw [List.length_drop]; omega)
          (by rw [List.length_drop]; exact Nat.dvd_sub' hd dvd_rfl)]
      rw [List.length_drop]
      obtain ⟨k, hk⟩ := hd
      cases k with
      | zero => omega
      | succ k' =>
        have hk' : l.length = B * (k' + 1) := hk
        have h2 : B * (k' + 1) = B * k' + B := by
          rw [Nat.mul_add, Nat.mul_one]
        have h1 : B * (k' + 1) - B = B * k' := by omega
        rw [hk', h1, Nat.mul_div_cancel_left k' hB,
          Nat.mul_div_cancel_left (k' + 1) hB]

theorem fullBlocks_blockLength (B : Nat) (hB : 0 < B) :
    ∀ fuel l, l.length ≤ fuel → ∀ b ∈ fullBlocks B l, b.length = B := by
  intro fuel
  induction fuel with
  | zero =>
    intro l h b hb
    have hl : l = [] := List.length_eq_zero.mp (by omega)
    subst hl
    simp [fullBlocks, chunksGo] at hb
  | succ f ih =>
    intro l h b hb
    by_cases hlt : l.length < B
    · have hnil : fullBlocks B l = [] := by
        rw [fullBlocks]
        cases hl : l.length with
        | zero => rfl
        | succ n => simp only [chunksGo, if_pos hlt]
      rw [hnil] at hb
      simp at hb
    · rw [fullBlocks_cons B l hB (by omega), List.mem_cons] at hb
      rcases hb with hb | hb
      · rw [hb, List.length_take]; omega
      · exact ih (l.drop B) (by rw [List.length_drop]; omega) b hb

theorem le_mul_ceilDiv (nb nt : Nat) (h : 0 < nt) :
    nb ≤ nt * ((nb + nt - 1) / nt) := by
  have h1 := Nat.div_add_mod (nb + nt - 1) nt
  have h2 : (nb + nt - 1) % nt < nt := Nat.mod_lt _ h
  omega

theorem threadChunks_flatten (bpt : Nat) (blocks : List (List Nat)) :
    ∀ tc t, blocks.length ≤ (t + tc) * bpt →
      (threadChunks bpt blocks tc t).flatten = blocks.drop (t * bpt) := by
  intro tc
  induction tc with
  | zero =>
    intro t h
    simp only [threadChunks, List.flatten_nil]
    exact (List.drop_eq_nil_of_le (by simpa using h)).symm
  | succ tc ih =>
    intro t h
    by_cases hle : blocks.length ≤ t * bpt
    · simp only [threadChunks, if_pos hle, List.flatten_nil]
      exact (List.drop_eq_nil_of_le hle).symm
    · simp only [threadChunks, if_neg hle, List.flatten_cons]
      rw [ih (t + 1) (by
        have he : (t + 1 + tc) * bpt = (t + (tc + 1)) * bpt := by ring
        rw [he]; exact h)]
      rw [show (t + 1) * bpt = t * bpt + bpt by ring, ← List.drop_drop]
      exact List.take_append_drop bpt (blocks.drop (t * bpt))

theorem exceptPure_eq_ok {α : Type} (a : α) :
    (pure a : Except String α) = .ok a := rfl

theorem exceptPure_bind {α β : Type} (a : α) (g : α → Except String β) :
    ((pure a : Except String α) >>= g) = g a := rfl

theorem mapM_ok (C : List Nat → Except String (List Nat)) :
    ∀ bs : List (List Nat), (∀ b ∈ bs, ∃ c, C b = .ok c) →
      ∃ cs, bs.mapM C = .ok cs := by
  intro bs
  induction bs with
  | nil => intro _; exact ⟨[], rfl⟩
  | cons b bs ih =>
    intro h
    obtain ⟨c, hc⟩ := h b (by simp)
    obtain ⟨cs, hcs⟩ := ih (fun x hx => h x (by simp [hx]))
    exact ⟨c :: cs, by
      simp only [List.mapM_cons, hc, exceptBind_ok, hcs, exceptPure_eq_ok]⟩

theorem mapM_flatten (C : List Nat → Except String (List Nat)) :
    ∀ (gs : List (List (List Nat))) (cs : List (List Nat)),
      gs.flatten.mapM C = .ok cs →
      ∃ gs2, gs.mapM (fun g => g.mapM C) = .ok gs2 ∧ gs2.flatten = cs := by
  intro gs
  induction gs with
  | nil =>
    intro cs h
    simp only [List.flatten_nil, List.mapM_nil, exceptPure_eq_ok] at h
    injection h with h2
    subst h2
    exact ⟨[], rfl, rfl⟩
  | cons g gs ih =>
    intro cs h
    rw [List.flatten_cons, List.mapM_append] at h
    cases hg : g.mapM C with
    | error e =>
      simp only [hg, exceptBind_err] at h
      exact Except.noConfusion h
    | ok as =>
      simp only [hg, exceptBind_ok] at h
      cases hrest : gs.flatten.mapM C with
      | error e =>
        simp only [hrest, exceptBind_err] at h
        exact Except.noConfusion h
      | ok bs =>
        simp only [hrest, exceptBind_ok, exceptPure_eq_ok] at h
        injection h with h2
        obtain ⟨gs2, hgs2, hflat⟩ := ih bs hrest
        refine ⟨as :: gs2, ?_, ?_⟩
        · simp only [List.mapM_cons, hg, exceptBind_ok, hgs2,
            exceptPure_eq_ok]
        · simp only [List.flatten_cons, hflat, h2]

theorem incN_add (a b : Nat) (c : List Nat) :
    incN a (incN b c) = incN (b + a) c := by
  induction b generalizing c with
  | zero => simp [incN]
  | succ b ih =>
    have h1 : incN a (incN (b + 1) c) = incN a (incN b (incrementCounter c)) :=
      rfl
    rw [h1, ih (incrementCounter c), show b + 1 + a = (b + a) + 1 by omega]
    rfl

theorem ctrWorker_ok (E : List Nat → Except String (List Nat)) (B : Nat)
    (hE : ∀ b, b.length = B → ∃ c, E b = .ok c) :
    ∀ (bs : List (List Nat)) (c : List Nat), c.length = B →
      ∃ res, ctrWorker E c bs = .ok res := by
  intro bs
  induction bs with
  | nil => intro c _; exact ⟨[], rfl⟩
  | cons b bs ih =>
    intro c hc
    obtain ⟨ec, hec⟩ := hE c hc
    obtain ⟨rest, hrest⟩ := ih (incrementCounter c)
      (by rw [incrementCounter_length, hc])
    exact ⟨xorB ec b :: rest, by
      simp only [ctrWorker, hec, exceptBind_ok, exceptPure_bind, hrest]⟩

theorem ctrWorker_append_inv (E : List Nat → Except String (List Nat)) :
    ∀ (bs1 bs2 : List (List Nat)) (c : List Nat) (res : List (List Nat)),
      ctrWorker E c (bs1 ++ bs2) = .ok res →
      ∃ o1 o2, ctrWorker E c bs1 = .ok o1 ∧
        ctrWorker E (incN bs1.length c) bs2 = .ok o2 ∧ res = o1 ++ o2 := by
  intro bs1
  induction bs1 with
  | nil =>
    intro bs2 c res h
    exact ⟨[], res, rfl, h, rfl⟩
  | cons b bs1 ih =>
    intro bs2 c res h
    rw [List.cons_append] at h
    cases hec : E c with
    | error e =>
      simp only [ctrWorker, hec, exceptBind_err] at h
      exact Except.noConfusion h
    | ok ec =>
      simp only [ctrWorker, hec, exceptBind_ok, exceptPure_bind] at h
      cases hrec : ctrWorker E (incrementCounter c) (bs1 ++ bs2) with
      | error e =>
        simp only [hrec, exceptBind_err] at h
        exact Except.noConfusion h
      | ok r =>
        simp only [hrec, exceptBind_ok] at h
        injection h with h2
        obtain ⟨o1, o2, ho1, ho2, hr⟩ := ih bs2 (incrementCounter c) r hrec
        refine ⟨xorB ec b :: o1, o2, ?_, ?_, ?_⟩
        · simp only [ctrWorker, hec, exceptBind_ok, exceptPure_bind, ho1]
        · exact ho2
        · rw [← h2, hr, List.cons_append]

theorem ctrThreads_eq (E : List Nat → Except String (List Nat))
    (bpt : Nat) (iv : List Nat) (blocks : List (List Nat)) :
    ∀ (tc t : Nat) (res : List (List Nat)),
      blocks.length ≤ (t + tc) * bpt →
      ctrWorker E (incN (t * bpt) iv) (blocks.drop (t * bpt)) = .ok res →
      ∃ outs,
        ctrThreads E bpt iv (threadChunks bpt blocks tc t) t = .ok outs ∧
        outs.flatten = res := by
  intro tc
  induction tc with
  | zero =>
    intro t res h hw
    have hd : blocks.drop (t * bpt) = [] :=
      List.drop_eq_nil_of_le (by simpa using h)
    rw [hd] at hw
    simp only [ctrWorker] at hw
    injection hw with h2
    subst h2
    exact ⟨[], rfl, rfl⟩
  | succ tc ih =>
    intro t res h hw
    by_cases hle : blocks.length ≤ t * bpt
    · have hd : blocks.drop (t * bpt) = [] := List.drop_eq_nil_of_le hle
      rw [hd] at hw
      simp only [ctrWorker] at hw
      injection hw with h2
      subst h2
      refine ⟨[], ?_, rfl⟩
      simp only [threadChunks, if_pos hle, ctrThreads]
    · have hsplit : blocks.drop (t * bpt) =
          (blocks.drop (t * bpt)).take bpt ++ blocks.drop ((t + 1) * bpt) := by
        rw [show (t + 1) * bpt = t * bpt + bpt by ring, ← List.drop_drop]
        exact (List.take_append_drop bpt (blocks.drop (t * bpt))).symm
      rw [hsplit] at hw
      obtain ⟨o1, o2, ho1, ho2, hres⟩ := ctrWorker_append_inv E _ _ _ _ hw
      have ho2' : ctrWorker E (incN ((t + 1) * bpt) iv)
          (blocks.drop ((t + 1) * bpt)) = .ok o2 := by
        by_cases hfull : bpt ≤ (blocks.drop (t * bpt)).length
        · rw [incN_add] at ho2
          have hlen : ((blocks.drop (t * bpt)).take bpt).length = bpt := by
            rw [List.length_take]; omega
          rw [hlen, show t * bpt + bpt = (t + 1) * bpt by ring] at ho2
          exact ho2
        · have hnil : blocks.drop ((t + 1) * bpt) = [] := by
            rw [show (t + 1) * bpt = t * bpt + bpt by ring, ← List.drop_drop]
            exact List.drop_eq_nil_of_le (by omega)
          rw [hnil] at ho2
          simp only [ctrWorker] at ho2
          injection ho2 with h2
          subst h2
          rw [hnil]
          rfl
      have hcov : blocks.length ≤ (t + 1 + tc) * bpt := by
        have he : (t + 1 + tc) * bpt = (t + (tc + 1)) * bpt := by ring
        rw [he]; exact h
      obtain ⟨outs', houts', hflat'⟩ := ih (t + 1) o2 hcov ho2'
      refine ⟨o1 :: outs', ?_, ?_⟩
      · simp only [threadChunks, if_neg hle, ctrThreads, ho1, exceptBind_ok,
          houts']
      · simp only [List.flatten_cons, hflat', hres]

theorem encryptSeqGo_ecb_ok (E : List Nat → Except String (List Nat))
    (B : Nat) (hB : 0 < B) :
    ∀ (fuel : Nat) (l cur : List Nat) (rnd : List (List Nat))
      (cs : List (List Nat)),
      l.length ≤ fuel → B ∣ l.length → (fullBlocks B l).mapM E = .ok cs →
      encryptSeqGo E .ECB B fuel rnd cur l = .ok cs := by
  intro fuel
  induction fuel with
  | zero =>
    intro l cur rnd cs hfuel hdvd hm
    have hl : l = [] := List.length_eq_zero.mp (by omega)
    subst hl
    simp only [fullBlocks, List.length_nil, chunksGo] at hm
    injection hm with h2
    subst h2
    rfl
  | succ fuel ih =>
    intro l cur rnd cs hfuel hdvd hm
    by_cases hl0 : l.length = 0
    · have hl : l = [] := List.length_eq_zero.mp hl0
      subst hl
      simp only [fullBlocks, List.length_nil, chunksGo] at hm
      injection hm with h2
      subst h2
      simp [encryptSeqGo]
    · have hlB : B ≤ l.length := Nat.le_of_dvd (Nat.pos_of_ne_zero hl0) hdvd
      have htake : (l.take B).length = B := by rw [List.length_take]; omega
      have hblock : padTo B (l.take B) = l.take B := padTo_of_length _ _ htake
      have hdrop_dvd : B ∣ (l.drop B).length := by
        rw [List.length_drop]; exact Nat.dvd_sub' hdvd dvd_rfl
      have hdrop_le : (l.drop B).length ≤ fuel := by
        rw [List.length_drop]; omega
      rw [fullBlocks_cons B l hB hlB] at hm
      simp only [List.mapM_cons] at hm
      cases hc : E (l.take B) with
      | error e =>
        simp only [hc, exceptBind_err] at hm
        exact Except.noConfusion hm
      | ok c =>
        simp only [hc, exceptBind_ok] at hm
        cases hrest : (fullBlocks B (l.drop B)).mapM E with
        | error e =>
          simp only [hrest, exceptBind_err] at hm
          exact Except.noConfusion hm
        | ok cs' =>
          simp only [hrest, exceptBind_ok, exceptPure_eq_ok] at hm
          injection hm with h2
          subst h2
          simp only [encryptSeqGo, if_neg hl0, hblock, hc, exceptBind_ok,
            ih (l.drop B) cur rnd cs' hdrop_le hdrop_dvd hrest,
            exceptBind_ok]

theorem encryptSeqGo_ctr_ok (E : List Nat → Except String (List Nat))
    (B : Nat) (hB : 0 < B) :
    ∀ (fuel : Nat) (l cur : List Nat) (rnd : List (List Nat))
      (res : List (List Nat)),
      l.length ≤ fuel → B ∣ l.length →
      ctrWorker E cur (fullBlocks B l) = .ok res →
      encryptSeqGo E .CTR B fuel rnd cur l = .ok res := by
  intro fuel
  induction fuel with
  | zero =>
    intro l cur rnd res hfuel hdvd hw
    have hl : l = [] := List.length_eq_zero.mp (by omega)
    subst hl
    simp only [fullBlocks, List.length_nil, chunksGo, ctrWorker] at hw
    injection hw with h2
    subst h2
    rfl
  | succ fuel ih =>
    intro l cur rnd res hfuel hdvd hw
    by_cases hl0 : l.length = 0
    · have hl : l = [] := List.length_eq_zero.mp hl0
      subst hl
      simp only [fullBlocks, List.length_nil, chunksGo, ctrWorker] at hw
      injection hw with h2
      subst h2
      simp [encryptSeqGo]
    · have hlB : B ≤ l.length := Nat.le_of_dvd (Nat.pos_of_ne_zero hl0) hdvd
      have htake : (l.take B).length = B := by rw [List.length_take]; omega
      have hblock : padTo B (l.take B) = l.take B := padTo_of_length _ _ htake
      have hdrop_dvd : B ∣ (l.drop B).length := by
        rw [List.length_drop]; exact Nat.dvd_sub' hdvd dvd_rfl
      have hdrop_le : (l.drop B).length ≤ fuel := by
        rw [List.length_drop]; omega
      rw [fullBlocks_cons B l hB hlB] at hw
      cases hec : E cur with
      | error e =>
        simp only [ctrWorker, hec, exceptBind_err] at hw
        exact Except.noConfusion hw
      | ok ec =>
        simp only [ctrWorker, hec, exceptBind_ok, exceptPure_bind] at hw
        cases hrec : ctrWorker E (incrementCounter cur)
            (fullBlocks B (l.drop B)) with
        | error e =>
          simp only [hrec, exceptBind_err] at hw
          exact Except.noConfusion hw
        | ok r =>
          simp only [hrec, exceptBind_ok] at hw
          injection hw with h2
          subst h2
          simp only [encryptSeqGo, if_neg hl0, hblock, hec, exceptBind_ok,
            ih (l.drop B) (incrementCounter cur) rnd r hdrop_le hdrop_dvd
              hrec,
            exceptBind_ok]

theorem decryptSeqGo_ecb_ok (E D : List Nat → Except String (List Nat))
    (B : Nat) (hB : 0 < B) :
    ∀ (fuel : Nat) (l cur : List Nat) (cs : List (List Nat)),
      l.length ≤ fuel → B ∣ l.length → (fullBlocks B l).mapM D = .ok cs →
      decryptSeqGo E D .ECB B fuel cur l = .ok cs := by
  intro fuel
  induction fuel with
  | zero =>
    intro l cur cs hfuel hdvd hm
    have hl : l = [] := List.length_eq_zero.mp (by omega)
    subst hl
    simp only [fullBlocks, List.length_nil, chunksGo] at hm
    injection hm with h2
    subst h2
    rfl
  | succ fuel ih =>
    intro l cur cs hfuel hdvd hm
    by_cases hl0 : l.length = 0
    · have hl : l = [] := List.length_eq_zero.mp hl0
      subst hl
      simp only [fullBlocks, List.length_nil, chunksGo] at hm
      injection hm with h2
      subst h2
      simp [decryptSeqGo, hB]
    · have hlB : B ≤ l.length := Nat.le_of_dvd (Nat.pos_of_ne_zero hl0) hdvd
      have hdrop_dvd : B ∣ (l.drop B).length := by
        rw [List.length_drop]; exact Nat.dvd_sub' hdvd dvd_rfl
      have hdrop_le : (l.drop B).length ≤ fuel := by
        rw [List.length_drop]; omega
      rw [fullBlocks_cons B l hB hlB] at hm
      simp only [List.mapM_cons] at hm
      cases hc : D (l.take B) with
      | error e =>
        simp only [hc, exceptBind_err] at hm
        exact Except.noConfusion hm
      | ok c =>
        simp only [hc, exceptBind_ok] at hm
        cases hrest : (fullBlocks B (l.drop B)).mapM D with
        | error e =>
          simp only [hrest, exceptBind_err] at hm
          exact Except.noConfusion hm
        | ok cs' =>
          simp only [hrest, exceptBind_ok, exceptPure_eq_ok] at hm
          injection hm with h2
          subst h2
          simp only [decryptSeqGo, if_neg (by omega : ¬ l.length < B), hc,
            exceptBind_ok,
            ih (l.drop B) cur cs' hdrop_le hdrop_dvd hrest, exceptBind_ok]

theorem decryptSeqGo_ctr_ok (E D : List Nat → Except String (List Nat))
    (B : Nat) (hB : 0 < B) :
    ∀ (fuel : Nat) (l cur : List Nat) (res : List (List Nat)),
      l.length ≤ fuel → B ∣ l.length →
      ctrWorker E cur (fullBlocks B l) = .ok res →
      decryptSeqGo E D .CTR B fuel cur l = .ok res := by
  intro fuel
  induction fuel with
  | zero =>
    intro l cur res hfuel hdvd hw
    have hl : l = [] := List.length_eq_zero.mp (by omega)
    subst hl
    simp only [fullBlocks, List.length_nil, chunksGo, ctrWorker] at hw
    injection hw with h2
    subst h2
    rfl
  | succ fuel ih =>
    intro l cur res hfuel hdvd hw
    by_cases hl0 : l.length = 0
    · have hl : l = [] := List.length_eq_zero.mp hl0
      subst hl
      simp only [fullBlocks, List.length_nil, chunksGo, ctrWorker] at hw
      injection hw with h2
      subst h2
      simp only [decryptSeqGo, List.length_nil, if_pos hB]
    · have hlB : B ≤ l.length := Nat.le_of_dvd (Nat.pos_of_ne_zero hl0) hdvd
      have hdrop_dvd : B ∣ (l.drop B).length := by
        rw [List.length_drop]; exact Nat.dvd_sub' hdvd dvd_rfl
      have hdrop_le : (l.drop B).length ≤ fuel := by
        rw [List.length_drop]; omega
      rw [fullBlocks_cons B l hB hlB] at hw
      cases hec : E cur with
      | error e =>
        simp only [ctrWorker, hec, exceptBind_err] at hw
        exact Except.noConfusion hw
      | ok ec =>
        simp only [ctrWorker, hec, exceptBind_ok, exceptPure_bind] at hw
        cases hrec : ctrWorker E (incrementCounter cur)
            (fullBlocks B (l.drop B)) with
        | error e =>
          simp only [hrec, exceptBind_err] at hw
          exact Except.noConfusion hw
        | ok r =>
          simp only [hrec, exceptBind_ok] at hw
          injection hw with h2
          subst h2
          simp only [decryptSeqGo, if_neg (by omega : ¬ l.length < B), hec,
            exceptBind_ok,
            ih (l.drop B) (incrementCounter cur) r hdrop_le hdrop_dvd hrec,
            exceptBind_ok]

theorem ecbParallel_ok (C : List Nat → Except String (List Nat))
    (B numThreads : Nat) (l : List Nat) (cs : List (List Nat))
    (hB : 0 < B) (hnt : 0 < numThreads) (hdvd : B ∣ l.length)
    (hm : (fullBlocks B l).mapM C = .ok cs) :
    ecbParallel C B numThreads l = .ok cs.flatten := by
  have hnb : (fullBlocks B l).length = l.length / B :=
    fullBlocks_length B hB l.length l (le_refl _) hdvd
  have hcov : (fullBlocks B l).length ≤
      (0 + numThreads) * ((l.length / B + numThreads - 1) / numThreads) := by
    rw [hnb, Nat.zero_add]
    exact le_mul_ceilDiv (l.length / B) numThreads hnt
  have hflat := threadChunks_flatten
    ((l.length / B + numThreads - 1) / numThreads) (fullBlocks B l)
    numThreads 0 hcov
  rw [Nat.zero_mul, List.drop_zero] at hflat
  obtain ⟨gs2, hgs2, hgflat⟩ := mapM_flatten C
    (threadChunks ((l.length / B + numThreads - 1) / numThreads)
      (fullBlocks B l) numThreads 0) cs (by rw [hflat]; exact hm)
  simp only [ecbParallel]
  rw [if_neg (by omega : ¬ B = 0)]
  simp only [hgs2, exceptBind_ok]
  rw [Nat.div_mul_cancel hdvd, Nat.sub_self]
  simp [hgflat]

theorem ctrParallel_ok (E : List Nat → Except String (List Nat))
    (B numThreads : Nat) (iv l : List Nat) (res : List (List Nat))
    (hB : 0 < B) (hnt : 0 < numThreads) (hlen : B ≤ l.length)
    (hdvd : B ∣ l.length)
    (hw : ctrWorker E iv (fullBlocks B l) = .ok res) :
    encryptCTRParallel E B numThreads iv l = .ok res.flatten := by
  have hnb1 : 1 ≤ l.length / B := (Nat.one_le_div_iff hB).mpr hlen
  have hnb : (fullBlocks B l).length = l.length / B :=
    fullBlocks_length B hB l.length l (le_refl _) hdvd
  simp only [encryptCTRParallel]
  rw [if_neg (by omega : ¬ B = 0)]
  set nt := if numThreads > l.length / B then l.length / B else numThreads
    with hnt2
  set bpt := (l.length / B + nt - 1) / nt with hbpt
  have hntpos : 0 < nt := by rw [hnt2]; split <;> omega
  rw [if_neg (show ¬ nt = 0 by omega)]
  have hcov : (fullBlocks B l).length ≤ (0 + nt) * bpt := by
    rw [hnb, Nat.zero_add, hbpt]
    exact le_mul_ceilDiv (l.length / B) nt hntpos
  have hw' : ctrWorker E (incN (0 * bpt) iv)
      ((fullBlocks B l).drop (0 * bpt)) = .ok res := by
    rw [Nat.zero_mul, List.drop_zero]
    exact hw
  obtain ⟨outs, houts, hflat⟩ :=
    ctrThreads_eq E bpt iv (fullBlocks B l) nt 0 res hcov hw'
  simp only [houts, exceptBind_ok]
  rw [Nat.div_mul_cancel hdvd, Nat.sub_self]
  simp [hflat]

/-- C6 (amended): for ECB and CTR modes, when the thread count is positive,
the IV has block-size length and the cipher succeeds with block-size output
on every block-size input, the parallel `Encrypt` path produces exactly the
sequential result on every plaintext, and the parallel `Decrypt` path
produces exactly the sequential result on every non-empty ciphertext whose
length is a multiple of the block size.  (On ragged or empty ciphertexts
the two paths differ — see the counterexample.) -/
theorem c6_parallel_matches_sequential (ctx : CipherContext)
    (numThreads : Nat) (rndDelta : List (List Nat)) (rndPad : List Nat)
    (hmode : ctx.mode = .ECB ∨ ctx.mode = .CTR)
    (hB : 0 < ctx.blockSize) (hnt : 0 < numThreads)
    (hiv : ctx.iv.length = ctx.blockSize)
    (hE : ∀ b : List Nat, b.length = ctx.blockSize →
      ∃ c, ctx.cipher.encryptBlock b = .ok c ∧ c.length = ctx.blockSize)
    (hD : ∀ b : List Nat, b.length = ctx.blockSize →
      ∃ c, ctx.cipher.decryptBlock b = .ok c ∧ c.length = ctx.blockSize)
    (hrndP : ctx.blockSize ≤ rndPad.length) :
    (∀ x : List Nat, Encrypt ctx numThreads rndDelta rndPad x true =
      Encrypt ctx numThreads rndDelta rndPad x false) ∧
    (∀ ct : List Nat, 0 < ct.length → ctx.blockSize ∣ ct.length →
      Decrypt ctx numThreads ct true = Decrypt ctx numThreads ct false) := by
  constructor
  · intro x
    have hmod : x.length % ctx.blockSize < ctx.blockSize := Nat.mod_lt _ hB
    have hdm := Nat.div_add_mod x.length ctx.blockSize
    have hpne : ¬ (ctx.blockSize - x.length % ctx.blockSize = 0) := by omega
    have hplen : (applyPadding ctx.paddingMode ctx.blockSize rndPad x).length
        = x.length + (ctx.blockSize - x.length % ctx.blockSize) := by
      cases hpm : ctx.paddingMode <;>
        simp only [applyPadding, if_neg hpne] <;>
        simp [List.length_take, List.length_replicate] <;> omega
    have hdvd : ctx.blockSize ∣
        (applyPadding ctx.paddingMode ctx.blockSize rndPad x).length := by
      rw [hplen]
      exact ⟨x.length / ctx.blockSize + 1, by
        rw [Nat.mul_add, Nat.mul_one]; omega⟩
    have hlenB : ctx.blockSize ≤
        (applyPadding ctx.paddingMode ctx.blockSize rndPad x).length := by
      rw [hplen]
      have := Nat.mod_le x.length ctx.blockSize
      omega
    have hblocklen : ∀ b ∈ fullBlocks ctx.blockSize
        (applyPadding ctx.paddingMode ctx.blockSize rndPad x),
        b.length = ctx.blockSize :=
      fullBlocks_blockLength ctx.blockSize hB
        (applyPadding ctx.paddingMode ctx.blockSize rndPad x).length
        (applyPadding ctx.paddingMode ctx.blockSize rndPad x) (le_refl _)
    have hpadTo : padTo ctx.blockSize ctx.iv = ctx.iv :=
      padTo_of_length _ _ hiv
    rcases hmode with hm | hm
    · obtain ⟨cs, hcs⟩ := mapM_ok ctx.cipher.encryptBlock
        (fullBlocks ctx.blockSize
          (applyPadding ctx.paddingMode ctx.blockSize rndPad x))
        (fun b hb => (hE b (hblocklen b hb)).imp (fun c hc => hc.1))
      have hpar : Encrypt ctx numThreads rndDelta rndPad x true =
          .ok cs.flatten := by
        rw [Encrypt, if_pos ⟨hm, rfl⟩]
        exact ecbParallel_ok ctx.cipher.encryptBlock ctx.blockSize
          numThreads (applyPadding ctx.paddingMode ctx.blockSize rndPad x)
          cs hB hnt hdvd hcs
      have hseq : Encrypt ctx numThreads rndDelta rndPad x false =
          .ok cs.flatten := by
        rw [Encrypt, if_neg (by simp), if_neg (by simp), hm]
        have hs := encryptSeqGo_ecb_ok ctx.cipher.encryptBlock
          ctx.blockSize hB
          (applyPadding ctx.paddingMode ctx.blockSize rndPad x).length
          (applyPadding ctx.paddingMode ctx.blockSize rndPad x)
          (padTo ctx.blockSize ctx.iv) rndDelta cs (le_refl _) hdvd hcs
        simp only [hs, exceptBind_ok]
      rw [hpar, hseq]
    · obtain ⟨res, hres⟩ := ctrWorker_ok ctx.cipher.encryptBlock
        ctx.blockSize (fun b hb => (hE b hb).imp (fun c hc => hc.1))
        (fullBlocks ctx.blockSize
          (applyPadding ctx.paddingMode ctx.blockSize rndPad x))
        ctx.iv hiv
      have hpar : Encrypt ctx numThreads rndDelta rndPad x true =
          .ok res.flatten := by
        rw [Encrypt, if_neg (by simp [hm]), if_pos ⟨hm, rfl⟩]
        exact ctrParallel_ok ctx.cipher.encryptBlock ctx.blockSize
          numThreads ctx.iv
          (applyPadding ctx.paddingMode ctx.blockSize rndPad x)
          res hB hnt hlenB hdvd hres
      have hseq : Encrypt ctx numThreads rndDelta rndPad x false =
          .ok res.flatten := by
        rw [Encrypt, if_neg (by simp), if_neg (by simp), hm, hpadTo]
        have hs := encryptSeqGo_ctr_ok ctx.cipher.encryptBlock
          ctx.blockSize hB
          (applyPadding ctx.paddingMode ctx.blockSize rndPad x).length
          (applyPadding ctx.paddingMode ctx.blockSize rndPad x)
          ctx.iv rndDelta res (le_refl _) hdvd hres
        simp only [hs, exceptBind_ok]
      rw [hpar, hseq]
  · intro ct hpos hdvd
    have hlenB : ctx.blockSize ≤ ct.length := Nat.le_of_dvd hpos hdvd
    have hblocklen : ∀ b ∈ fullBlocks ctx.blockSize ct,
        b.length = ctx.blockSize :=
      fullBlocks_blockLength ctx.blockSize hB ct.length ct (le_refl _)
    rcases hmode with hm | hm
    · obtain ⟨cs, hcs⟩ := mapM_ok ctx.cipher.decryptBlock
        (fullBlocks ctx.blockSize ct)
        (fun b hb => (hD b (hblocklen b hb)).imp (fun c hc => hc.1))
      have hpar : Decrypt ctx numThreads ct true =
          .ok (removePadding ctx.paddingMode ctx.blockSize cs.flatten) := by
        rw [Decrypt, if_pos ⟨hm, rfl⟩]
        have hp := ecbParallel_ok ctx.cipher.decryptBlock ctx.blockSize
          numThreads ct cs hB hnt hdvd hcs
        simp only [decryptECBParallel, hp, exceptBind_ok]
      have hseq : Decrypt ctx numThreads ct false =
          .ok (removePadding ctx.paddingMode ctx.blockSize cs.flatten) := by
        rw [Decrypt, if_neg (by simp), if_neg (by simp), hm]
        have hs := decryptSeqGo_ecb_ok ctx.cipher.encryptBlock
          ctx.cipher.decryptBlock ctx.blockSize hB ct.length ct ctx.iv cs
          (le_refl _) hdvd hcs
        simp only [hs, exceptBind_ok]
      rw [hpar, hseq]
    · obtain ⟨res, hres⟩ := ctrWorker_ok ctx.cipher.encryptBlock
        ctx.blockSize (fun b hb => (hE b hb).imp (fun c hc => hc.1))
        (fullBlocks ctx.blockSize ct) ctx.iv hiv
      have hpar : Decrypt ctx numThreads ct true =
          .ok (removePadding ctx.paddingMode ctx.blockSize res.flatten) := by
        rw [Decrypt, if_neg (by simp [hm]), if_pos ⟨hm, rfl⟩]
        have hp := ctrParallel_ok ctx.cipher.encryptBlock ctx.blockSize
          numThreads ctx.iv ct res hB hnt hlenB hdvd hres
        simp only [hp, exceptBind_ok]
      have hseq : Decrypt ctx numThreads ct false =
          .ok (removePadding ctx.paddingMode ctx.blockSize res.flatten) := by
        rw [Decrypt, if_neg (by simp), if_neg (by simp), hm]
        have hs := decryptSeqGo_ctr_ok ctx.cipher.encryptBlock
          ctx.cipher.decryptBlock ctx.blockSize hB ct.length ct ctx.iv res
          (le_refl _) hdvd hres
        simp only [hs, exceptBind_ok]
      rw [hpar, hseq]

/-- C6 (counterexample): the parallel and sequential paths are not
byte-for-byte identical on all inputs.  With the identity cipher at block
size 2, decrypting the 3-byte ciphertext `[1, 5, 7]` in ECB mode yields
`[1, 5, 0]` on the parallel path (the ragged final byte is zero-filled)
but `[1, 5]` on the sequential path (the ragged tail is dropped); and in
CTR mode decrypting the empty ciphertext crashes with an integer division
by zero on the parallel path (the thread count is clamped to the block
count 0) while the sequential path returns the empty plaintext. -/
theorem c6_counterexample :
    Decrypt ⟨idCipher, [], .ECB, .Zeros, [], 2, false⟩ 1 [1, 5, 7] true =
        .ok [1, 5, 0] ∧
      Decrypt ⟨idCipher, [], .ECB, .Zeros, [], 2, false⟩ 1 [1, 5, 7] false =
        .ok [1, 5] ∧
      Decrypt ⟨idCipher, [], .CTR, .Zeros, [0, 0], 2, false⟩ 1 [] true =
        .error "integer divide by zero" ∧
      Decrypt ⟨idCipher, [], .CTR, .Zeros, [0, 0], 2, false⟩ 1 [] false =
        .ok [] :=
  ⟨rfl, rfl, rfl, rfl⟩

/-- C6 (witness): the amended parallel/sequential agreement at a concrete
CTR context over the identity cipher with block size 2, three threads,
plaintext `[1, 2, 3]` and a 4-byte ciphertext. -/
theorem c6_parallel_matches_sequential_witness :
    (Encrypt ⟨idCipher, [], .CTR, .PKCS7, [0, 0], 2, false⟩ 3 [] [7, 7]
        [1, 2, 3] true =
      Encrypt ⟨idCipher, [], .CTR, .PKCS7, [0, 0], 2, false⟩ 3 [] [7, 7]
        [1, 2, 3] false) ∧
    (Decrypt ⟨idCipher, [], .CTR, .PKCS7, [0, 0], 2, false⟩ 3 [9, 8, 7, 6]
        true =
      Decrypt ⟨idCipher, [], .CTR, .PKCS7, [0, 0], 2, false⟩ 3 [9, 8, 7, 6]
        false) :=
  ⟨(c6_parallel_matches_sequential
      ⟨idCipher, [], .CTR, .PKCS7, [0, 0], 2, false⟩ 3 [] [7, 7]
      (Or.inr rfl) (by decide) (by decide) (by decide)
      (fun b hb => ⟨b, rfl, hb⟩) (fun b hb => ⟨b, rfl, hb⟩)
      (by decide)).1 [1, 2, 3],
   (c6_parallel_matches_sequential
      ⟨idCipher, [], .CTR, .PKCS7, [0, 0], 2, false⟩ 3 [] [7, 7]
      (Or.inr rfl) (by decide) (by decide) (by decide)
      (fun b hb => ⟨b, rfl, hb⟩) (fun b hb => ⟨b, rfl, hb⟩)
      (by decide)).2 [9, 8, 7, 6] (by decide) (by decide)⟩

end OKLabs
